import Mathlib

/-!
Verification of the defoe METS/ALTO object model (`defoe/fmp` and the
`nlsArticles` archive builder) against its natural-language specification.

Python sources are shallowly embedded: dictionaries become association
lists with Python dict semantics (`dget?`, `dset`), raised exceptions
become `Except PyErr`, and the specific regular expressions used by the
code are embedded as executable character-list scanners that follow the
backtracking priority of the Python `re` module on these patterns.
-/

/-- Python exception classes observed by the embedded code. -/
inductive PyErr
  | typeError
  | valueError
  | keyError
  | indexError
  | attributeError
  | runtimeError
  | syntaxError
  | nameError
deriving DecidableEq

deriving instance DecidableEq for Except

/-- Decimal digits to a natural number (used for `int()` on digit strings). -/
def digitsToNat (cs : List Char) : Nat :=
  cs.foldl (fun acc c => acc * 10 + (c.toNat - 48)) 0

/-- ASCII whitespace as stripped by Python `int()`/`float()`/`str.strip`. -/
def isPySpace (c : Char) : Bool :=
  c = ' ' || c = '\t' || c = '\n' || c = '\r' || c = '\x0b' || c = '\x0c'

/-- Model of Python `str.strip()` on the underlying character list. -/
def strTrim (s : String) : String :=
  ⟨((s.data.dropWhile isPySpace).reverse.dropWhile isPySpace).reverse⟩

/-- Model of Python `str.startswith(p)` on the underlying character list. -/
def strStarts (s p : String) : Bool :=
  p.data.isPrefixOf s.data

/-- Helper for `splitChar`: accumulates the current piece in reverse. -/
def splitCharAux (sep : Char) : List Char → List Char → List (List Char)
  | [], acc => [acc.reverse]
  | c :: cs, acc =>
    if c = sep then acc.reverse :: splitCharAux sep cs []
    else splitCharAux sep cs (c :: acc)

/-- Python `str.split(sep)` for a single-character separator (empty pieces
are kept, as in Python). -/
def splitChar (sep : Char) (cs : List Char) : List (List Char) :=
  splitCharAux sep cs []

/-- Model of Python `int(s)`: optional surrounding whitespace, optional
sign, then a nonempty run of decimal digits; anything else raises
`ValueError`. -/
def pyInt (s : String) : Except PyErr Int :=
  let t := strTrim s
  let neg := strStarts t "-"
  let core := if strStarts t "-" || strStarts t "+" then t.drop 1 else t
  if core.length > 0 && core.data.all Char.isDigit then
    let n : Int := Int.ofNat (digitsToNat core.data)
    .ok (if neg then -n else n)
  else .error .valueError

/-- Model of Python `int(element.get(attr))`: a missing attribute is
`None`, and `int(None)` raises `TypeError`. -/
def pyIntAttr : Option String → Except PyErr Int
  | none => .error .typeError
  | some s => pyInt s

/-- Model of Python `float(s)` restricted to the decimal forms that occur
in ALTO confidence attributes: optional sign, digits, optional fractional
part. Anything else raises `ValueError`. -/
def pyFloat (s : String) : Except PyErr Rat :=
  let t := strTrim s
  let neg := strStarts t "-"
  let core := if strStarts t "-" || strStarts t "+" then t.drop 1 else t
  match splitChar '.' core.data with
  | [intPart] =>
    if 0 < intPart.length && intPart.all Char.isDigit then
      let v : Rat := (digitsToNat intPart : Rat)
      .ok (if neg then -v else v)
    else .error .valueError
  | [intPart, fracPart] =>
    if (0 < intPart.length || 0 < fracPart.length)
        && intPart.all Char.isDigit && fracPart.all Char.isDigit then
      let v : Rat :=
        (digitsToNat intPart : Rat)
          + (digitsToNat fracPart : Rat) / ((10 : Rat) ^ fracPart.length)
      .ok (if neg then -v else v)
    else .error .valueError
  | _ => .error .valueError

/-- Python dict lookup `d[k]` as an option (association list, at most one
entry per key when built with `dset`). -/
def dget? {α : Type} (d : List (String × α)) (k : String) : Option α :=
  (d.find? (fun p => p.1 == k)).map (fun p => p.2)

/-- Python dict assignment `d[k] = v`: updates the existing entry in
place, or appends a new entry (insertion order preserved). -/
def dset {α : Type} (d : List (String × α)) (k : String) (v : α) : List (String × α) :=
  if d.any (fun p => p.1 == k) then
    d.map (fun p => if p.1 == k then (k, v) else p)
  else d ++ [(k, v)]

/-- Keys of a dict, in order. -/
def dkeys {α : Type} (d : List (String × α)) : List String :=
  d.map (fun p => p.1)

/-! Section: `Document._parse_year` (defoe/fmp/document.py) and its regexes
(defoe/fmp/patterns.py). -/

/-- Embedding of the `DATE` pattern `1[6-9]\d{2}(-|/)(0[1-9]|1[0-2])(-|/)(0[1-9]|[12]\d|3[01])`
tested with `re.match` (anchored at the start, trailing text allowed). -/
def standardMatch (s : String) : Bool :=
  match s.data with
  | c0 :: c1 :: c2 :: c3 :: c4 :: c5 :: c6 :: c7 :: c8 :: c9 :: _ =>
    c0 = '1' && ('6' ≤ c1 && c1 ≤ '9') && c2.isDigit && c3.isDigit &&
    (c4 = '-' || c4 = '/') &&
    ((c5 = '0' && '1' ≤ c6 && c6 ≤ '9') || (c5 = '1' && '0' ≤ c6 && c6 ≤ '2')) &&
    (c7 = '-' || c7 = '/') &&
    ((c8 = '0' && '1' ≤ c9 && c9 ≤ '9') || ((c8 = '1' || c8 = '2') && c9.isDigit) ||
      (c8 = '3' && (c9 = '0' || c9 = '1')))
  | _ => false

/-- Does the character list start with a match of `1[6-9]\d\d`? -/
def yearStart4 : List Char → Bool
  | c0 :: c1 :: c2 :: c3 :: _ =>
    c0 = '1' && ('6' ≤ c1 && c1 ≤ '9') && c2.isDigit && c3.isDigit
  | _ => false

/-- Embedding of `re.split` with the capturing pattern `(1[6-9]\d\d)`: returns the text
before the first match together with the list of
`(matched year, following text up to the next match)` pairs, scanning
left to right over non-overlapping matches. -/
def splitLong : List Char → String × List (String × String)
  | [] => (⟨[]⟩, [])
  | c0 :: c1 :: c2 :: c3 :: rest =>
    if c0 = '1' && ('6' ≤ c1 && c1 ≤ '9') && c2.isDigit && c3.isDigit then
      let res := splitLong rest
      ((⟨[]⟩ : String), ((⟨[c0, c1, c2, c3]⟩ : String), res.1) :: res.2)
    else
      let res := splitLong (c1 :: c2 :: c3 :: rest)
      ((⟨c0 :: res.1.data⟩ : String), res.2)
  | c0 :: cs =>
    let res := splitLong cs
    ((⟨c0 :: res.1.data⟩ : String), res.2)

/-- Embedding of `re.findall` with pattern `\d\d`: non-overlapping two-digit runs,
scanning left to right. -/
def findShort : List Char → List String
  | c0 :: c1 :: rest =>
    if c0.isDigit && c1.isDigit then (⟨[c0, c1]⟩ : String) :: findShort rest
    else findShort (c1 :: rest)
  | _ => []

/-- Python `sorted(set(l))` for integers: deduplicate, sort ascending.
The elements are pairwise distinct after deduplication, so any correct
ascending sort produces exactly Python's output; `insertionSort` is used
because it is structurally recursive (and, like Python's sort, stable). -/
def dedupSortInt (l : List Int) : List Int :=
  (l.eraseDups).insertionSort (fun a b => a ≤ b)

/-- Embedding of `Document._parse_year` (defoe/fmp/document.py lines 859-899). `None`
input makes `DATE_PATTERNS.standard.match(text)` raise `TypeError`, which
the source catches, returning `[]`. -/
def parseYear : Option String → Except PyErr (List Int)
  | none => .ok []
  | some text =>
    if standardMatch text then do
      let y ← pyInt (text.take 4)
      .ok [y]
    else do
      let pairs := (splitLong text.data).2
      let results ← pairs.foldlM (fun acc yr => do
        let y ← pyInt yr.1
        let century := yr.1.take 2
        let shorts := findShort yr.2.data
        let extras ← shorts.mapM (fun sy => pyInt (century ++ sy))
        .ok (acc ++ [y] ++ extras)) ([] : List Int)
      .ok (dedupSortInt results)

/-! Section: structural links — `Document.locators`, `Document.article_id_lookup`,
`Document.page_parts` (defoe/fmp/document.py). A locator link element is
modelled by its first two attribute values (`link.values()[0]`,
`link.values()[1]`); `struct_links` is the list of link groups. -/

/-- One `mets:smLocatorLink` element: its first two attribute values. -/
abbrev LocLink := String × String

/-- Embedding of `Document._clean_id`: `PART_ID = re.compile(r"[^A-Za-z0-9]+")`,
`PART_ID.sub("", string)` removes every non-alphanumeric character. -/
def cleanId (s : String) : String :=
  ⟨s.data.filter Char.isAlphanum⟩

/-- The test `locator.startswith("pa") or locator.startswith("phys")`. -/
def isAreaId (s : String) : Bool :=
  strStarts s "pa" || strStarts s "phys"

/-- One iteration of the loop in `Document.locators`: state is the
`current` variable (unset before the first article id: referencing it
then raises `NameError`) together with the dict built so far. -/
def locatorsStep (st : Option String × List (String × List String)) (link : LocLink) :
    Except PyErr (Option String × List (String × List String)) :=
  let locator := cleanId link.1
  if !(isAreaId locator) then
    .ok (some locator, dset st.2 locator [])
  else
    match st.1 with
    | none => .error .nameError
    | some cur =>
      match dget? st.2 cur with
      | none => .error .keyError
      | some lst => .ok (some cur, dset st.2 cur (lst ++ [locator]))

/-- Embedding of `Document.locators`: nested loop over link groups and their locator
links, threading the `current` article id. -/
def locators (groups : List (List LocLink)) :
    Except PyErr (List (String × List String)) :=
  (groups.foldlM (fun st (g : List LocLink) => g.foldlM locatorsStep st)
    ((none : Option String), ([] : List (String × List String)))).map (fun st => st.2)

/-- One iteration of the `_parts` loop in `Document.article_id_lookup`:
`_tmp` is the group's cleaned locator ids and `_parts[_tmp[0]] = _tmp[1:]`
(an empty group raises `IndexError` at `_tmp[0]`). -/
def articlePartsStep (d : List (String × List String)) (g : List LocLink) :
    Except PyErr (List (String × List String)) :=
  match g.map (fun link => cleanId link.1) with
  | [] => .error .indexError
  | h :: t => .ok (dset d h t)

/-- The `_parts` dict of `Document.article_id_lookup`. -/
def articleParts (groups : List (List LocLink)) :
    Except PyErr (List (String × List String)) :=
  groups.foldlM articlePartsStep []

/-- One iteration of the inverting loop in
`Document.article_id_lookup`: for every area id of the entry, assign
`lookup[pa_id] = art_id`. -/
def lookupInsertGroup (acc : List (String × String)) (p : String × List String) :
    List (String × String) :=
  p.2.foldl (fun acc2 pa => dset acc2 pa p.1) acc

/-- Embedding of `Document.article_id_lookup`: inverts `_parts` into area id → article
id (later groups overwrite earlier entries for a repeated area id). -/
def articleIdLookup (groups : List (List LocLink)) :
    Except PyErr (List (String × String)) := do
  let parts ← articleParts groups
  .ok (parts.foldl lookupInsertGroup [])

/-- Embedding of `Document.page_parts`: cleaned first attribute value → second
attribute value, over all locator links of all groups. -/
def pageParts (groups : List (List LocLink)) : List (String × String) :=
  groups.foldl (fun d g =>
    g.foldl (fun d2 link => dset d2 (cleanId link.1) link.2) d) []

/-! Section: `AltoArchive.__init__` (defoe/nlsArticles/archive_combine.py) with
the FMP filename patterns (defoe/fmp/archive.py). The two regular
expressions are embedded as bounded searches that follow the backtracking
priority of `re.match`: lazy quantifiers try shorter lengths first,
greedy quantifiers longer lengths first. -/

/-- All characters are decimal digits. -/
def allDigits (cs : List Char) : Bool :=
  cs.all Char.isDigit

/-- Embedding of `re.match` of the document pattern `([0-9]*?_[0-9]*?)_mets\.xml`,
returning `match.group(1)`. Both starred groups are lazy, so candidate
lengths are tried in ascending order. -/
def docMatch1 (s : String) : Option String :=
  let cs := s.data
  let n := cs.length
  (List.range (n + 1)).findSome? (fun i =>
    if allDigits (cs.take i) && cs.get? i == some '_' then
      (List.range (n + 1)).findSome? (fun len2 =>
        let mid := (cs.drop (i + 1)).take len2
        if mid.length = len2 && allDigits mid
            && List.isPrefixOf "_mets.xml".data (cs.drop (i + 1 + len2)) then
          some (⟨cs.take (i + 1 + len2)⟩ : String)
        else none)
    else none)

/-- Embedding of `re.match` of the page pattern `([0-9]*?_[0-9]*?)_([0-9_]*)\.xml`,
returning `(match.group(0), match.group(1), match.group(2))`. The first
group is lazy (ascending), the second greedy (descending). -/
def pageMatch (s : String) : Option (String × String × String) :=
  let cs := s.data
  let n := cs.length
  (List.range (n + 1)).findSome? (fun i =>
    if allDigits (cs.take i) && cs.get? i == some '_' then
      (List.range (n + 1)).findSome? (fun len2 =>
        let mid := (cs.drop (i + 1)).take len2
        let j := i + 1 + len2
        if mid.length = len2 && allDigits mid && cs.get? j == some '_' then
          ((List.range (n + 1)).reverse).findSome? (fun len3 =>
            let body := (cs.drop (j + 1)).take len3
            let k := j + 1 + len3
            if body.length = len3 && body.all (fun c => c.isDigit || c = '_')
                && List.isPrefixOf ".xml".data (cs.drop k) then
              some ((⟨cs.take (k + 4)⟩ : String), (⟨cs.take j⟩ : String),
                (⟨body⟩ : String))
            else none)
        else none)
    else none)

/-- Embedding of `AltoArchive.__init__` (defoe/nlsArticles/archive_combine.py lines
43-60): document codes come from `match.group(1)` of the document
pattern; then every page match appends its `match.group(0)` (the whole
matched filename) to the entry of `document_name`, which is the first
document code (`list(self.document_codes.keys())[0]`, raising
`IndexError` when there is none; a missing key would raise `KeyError`). -/
def altoArchiveInit (filenames : List String) :
    Except PyErr (List (String × List String)) :=
  let documentMatches := filenames.filterMap docMatch1
  let pageMatches := filenames.filterMap pageMatch
  let codes := documentMatches.foldl (fun d c => dset d c []) []
  match codes.head? with
  | none => .error .indexError
  | some first =>
    pageMatches.foldlM (fun d m =>
      match dget? d first.1 with
      | some lst => .ok (dset d first.1 (lst ++ [m.1]))
      | none => .error .keyError) codes

/-- Modelled from the spec: "page codes are grouped under their document
code preserving encounter order", i.e. each page match's second captured
group is appended under the document code captured as that same
filename's first group. Used only to exhibit the divergence of
`altoArchiveInit` from the specified grouping. -/
def specGroupPages (filenames : List String) : List (String × List String) :=
  let docs := filenames.filterMap docMatch1
  let pages := filenames.filterMap pageMatch
  pages.foldl (fun d m =>
    match dget? d m.2.1 with
    | some lst => dset d m.2.1 (lst ++ [m.2.2])
    | none => d)
    (docs.foldl (fun d c => dset d c []) [])

/-! Section: comparison machinery. Python `sorted` compares tuples
lexicographically and strings by code points; both are embedded as
`Ordering`-valued comparators, and sorting as a stable insertion sort
(`pySort`), which agrees with Python's stable sort for any total
preorder. -/

/-- Three-way comparison on naturals. -/
def cmpNat (a b : Nat) : Ordering :=
  if a < b then .lt else if b < a then .gt else .eq

/-- Three-way comparison on integers. -/
def cmpInt (a b : Int) : Ordering :=
  if a < b then .lt else if b < a then .gt else .eq

/-- Three-way comparison on characters: Python compares by code point. -/
def cmpChar (a b : Char) : Ordering :=
  cmpNat a.toNat b.toNat

/-- Lexicographic comparison of lists, given an element comparator; a
proper prefix is smaller, as in Python. -/
def cmpList {α : Type} (cmp : α → α → Ordering) : List α → List α → Ordering
  | [], [] => .eq
  | [], _ :: _ => .lt
  | _ :: _, [] => .gt
  | a :: as, b :: bs => (cmp a b).then (cmpList cmp as bs)

/-- Three-way comparison on strings (code-point lexicographic, as in
Python). -/
def cmpStr (a b : String) : Ordering :=
  cmpList cmpChar a.data b.data

/-- Lexicographic comparison on pairs (Python tuple comparison). -/
def cmpProd {α β : Type} (ca : α → α → Ordering) (cb : β → β → Ordering)
    (x y : α × β) : Ordering :=
  (ca x.1 y.1).then (cb x.2 y.2)

/-- Boolean less-or-equal induced by a comparator. -/
def cmpLe {α : Type} (cmp : α → α → Ordering) (a b : α) : Bool :=
  cmp a b != Ordering.gt

/-- Stable insertion: the new element goes before the first element it
compares less-or-equal to. -/
def pyInsert {α : Type} (le : α → α → Bool) (a : α) : List α → List α
  | [] => [a]
  | b :: l => if le a b then a :: b :: l else b :: pyInsert le a l

/-- Stable insertion sort; for a total preorder this computes the same
list as Python's stable `sorted`. -/
def pySort {α : Type} (le : α → α → Bool) : List α → List α
  | [] => []
  | a :: l => pyInsert le a (pySort le l)

/-- Python `sorted(set(l))` for strings: deduplicate, sort ascending by
code-point order. -/
def dedupSortStr (l : List String) : List String :=
  pySort (cmpLe cmpStr) (l.eraseDups)

/-! Section: physical structural map, areas, pages and the eager part of
`Document.__init__` (defoe/fmp/document.py, defoe/fmp/area.py,
defoe/fmp/page.py). -/

/-- One child of an area division's first `mets:fptr` element, modelled by
its first three attribute values, unpacked in `Area.__init__` as
`self.img, self.type, _coords = file_pointer_element.values()`. -/
structure FptrElem where
  img : String
  shapeType : String
  coords : String
deriving DecidableEq

/-- One area division (`mets:div` inside a page division), modelled by its
first three attribute values (`self.id, self.type, self.category =
area_element.values()`) and the children of its first `mets:fptr` child
(`none` when there is no `mets:fptr` child: iterating
`area.find("mets:fptr")` then raises `TypeError`). -/
structure AreaDiv where
  id : String
  typ : String
  category : String
  fptr : Option (List FptrElem)
deriving DecidableEq

/-- One page division (`mets:div[@TYPE="page"]`), modelled by its first
two attribute values (`pages_metadata` keys on `y.values()[1].zfill(4)`)
and its area divisions. -/
structure PageDiv where
  attr0 : String
  attr1 : String
  areaDivs : List AreaDiv
deriving DecidableEq

/-- The METS stream of one document, as consumed by `Document`:
the flattened page divisions of the physical structural map, the locator
link groups of `mets:structLink`, and the date and place text queried
from MODS (each `None` when absent). -/
structure MetsDoc where
  physicalPages : List PageDiv
  linkGroups : List (List LocLink)
  dateText : Option String
  placeText : Option String
deriving DecidableEq

/-- Python `str.zfill(n)` for the digit strings used as page codes. -/
def zfill (s : String) (n : Nat) : String :=
  if n ≤ s.length then s else ⟨List.replicate (n - s.length) '0' ++ s.data⟩

/-- Embedding of `Document.pages_metadata`: a dict from
`y.values()[1].zfill(4)` to the page division, built in document order. -/
def pagesMetadata (m : MetsDoc) : List (String × PageDiv) :=
  m.physicalPages.foldl (fun d y => dset d (zfill y.attr1 4) y) []

/-- Embedding of `Document.page_codes`: the keys of `pages_metadata`. -/
def pageCodes (m : MetsDoc) : List String :=
  (pagesMetadata m).map (fun p => p.1)

/-- The attributes stored by `Area.__init__` (defoe/fmp/area.py lines
73-159). -/
structure AreaState where
  id : String
  type : String
  category : String
  img : String
  pageCode : String
  coords : List Int
  x0 : Int
  y0 : Int
  x1 : Int
  y1 : Int
  articleId : Option String
  pagePart : Option String
deriving DecidableEq

/-- Embedding of `Area.__init__`: the area division's values give
`(id, type, category)`; the file pointer's values then give
`(img, type, coords)`, overwriting `self.type`; the comma-separated
coordinates are parsed with `int` and unpacked into `x0, y0, x1, y1`
(raising `ValueError` unless there are exactly four); a missing
`article_id_lookup`/`page_parts` entry is caught (`KeyError`) and stored
as `None`. -/
def areaInit (articleLookup pagePartsD : List (String × String))
    (pageCode : String) (d : AreaDiv) (f : FptrElem) : Except PyErr AreaState := do
  let cList ← (splitChar ',' f.coords.data).mapM (fun cs => pyInt (⟨cs⟩ : String))
  match cList with
  | [cx0, cy0, cx1, cy1] =>
    .ok { id := d.id, type := f.shapeType, category := d.category, img := f.img,
          pageCode := pageCode, coords := cList,
          x0 := cx0, y0 := cy0, x1 := cx1, y1 := cy1,
          articleId := dget? articleLookup d.id,
          pagePart := dget? pagePartsD d.id }
  | _ => .error .valueError

/-- The ALTO stream of one page, as consumed by `Page.__init__`: the
`Page` element's WIDTH/HEIGHT/PC attributes (`none` when missing) and the
IDs of its `TextBlock` elements in document order. -/
structure PageXml where
  widthAttr : Option String
  heightAttr : Option String
  pcAttr : Option String
  textblockIds : List String
deriving DecidableEq

/-- Embedding of the page-confidence parse in `Page.__init__`:
`float(self.page_tree.get("PC"))` with `ValueError` and `TypeError` both
caught and turned into `0`. -/
def pageConfVal : Option String → Rat
  | none => 0
  | some s =>
    match pyFloat s with
    | .ok v => v
    | .error _ => 0

/-- The attributes stored by `Page.__init__` that this development
tracks. -/
structure PageState where
  code : String
  width : Int
  height : Int
  pageConfidence : Rat
  textblockIds : List String
deriving DecidableEq

/-- Embedding of `Page.__init__` (defoe/fmp/page.py lines 65-109):
`self.width = int(self.page_tree.get("WIDTH"))` and likewise for HEIGHT
have no exception handler, so a missing attribute raises `TypeError` and
a non-integer one raises `ValueError`; only the PC attribute falls back
to `0`. -/
def pageInit (code : String) (px : PageXml) : Except PyErr PageState := do
  let w ← pyIntAttr px.widthAttr
  let h ← pyIntAttr px.heightAttr
  .ok { code := code, width := w, height := h,
        pageConfidence := pageConfVal px.pcAttr,
        textblockIds := px.textblockIds }

/-- Streams opened by the object model (archive member reads). -/
inductive OpenEvent
  | docStream (code : String)
  | pageStream (code : String) (pageCode : String)
deriving DecidableEq

/-- One archive restricted to one document: the METS stream for
`open_document` and the ALTO streams for `open_page`, keyed by page
code. -/
structure ArchiveModel where
  docCode : String
  mets : MetsDoc
  pages : List (String × PageXml)
deriving DecidableEq

/-- Embedding of `Archive.open_page` followed by `Page.__init__`: a
missing archive member raises `KeyError`. -/
def openAndInitPage (arch : ArchiveModel) (pc : String) : Except PyErr PageState := do
  let px ←
    match dget? arch.pages pc with
    | some px => Except.ok px
    | none => Except.error PyErr.keyError
  pageInit pc px

/-- Embedding of the `Document.scan_areas` walk restricted to one page
division: for each area division, iterate the children of its first
`mets:fptr` child (raising `TypeError` when there is none) and construct
an `Area`. The `article_id_lookup` dict is computed lazily at the first
`Area` construction, so its exception (if any) surfaces there. -/
def scanAreasPage (lookupE : Except PyErr (List (String × String)))
    (pagePartsD : List (String × String)) (pageCode : String) (pd : PageDiv) :
    Except PyErr (List AreaState) :=
  pd.areaDivs.foldlM (fun acc ad =>
    match ad.fptr with
    | none => .error .typeError
    | some fps => do
        let lookup ← lookupE
        let newAreas ← fps.mapM (fun f => areaInit lookup pagePartsD pageCode ad f)
        .ok (acc ++ newAreas)) []

/-- Embedding of `Document.get_areas_by_page_code` over the listed page
divisions, recording one `open_page` event per page in visit order: the
source constructs a full `Page` (`self.get_page(page_code)`) for every
page code before scanning that page's areas. An exception aborts the
remaining iterations, as in Python. -/
def buildAreas (arch : ArchiveModel) (lookupE : Except PyErr (List (String × String)))
    (pagePartsD : List (String × String)) :
    List (String × PageDiv) →
      Except PyErr (List (String × List AreaState)) × List OpenEvent
  | [] => (.ok [], [])
  | (pc, pd) :: rest =>
    let ev := OpenEvent.pageStream arch.docCode pc
    match openAndInitPage arch pc with
    | .error e => (.error e, [ev])
    | .ok _ =>
      match scanAreasPage lookupE pagePartsD pc pd with
      | .error e => (.error e, [ev])
      | .ok areas =>
        let res := buildAreas arch lookupE pagePartsD rest
        match res.1 with
        | .error e => (.error e, ev :: res.2)
        | .ok restAreas => (.ok ((pc, areas) :: restAreas), ev :: res.2)

/-- Embedding of the comprehension filter in `Document.articles_ids`:
`area.article_id.startswith("art")` raises `AttributeError` when
`article_id` is `None` (Python `None` has no `startswith`). -/
def collectArtIds : List AreaState → Except PyErr (List String)
  | [] => .ok []
  | a :: rest =>
    match a.articleId with
    | none => .error .attributeError
    | some s => do
        let others ← collectArtIds rest
        .ok (if strStarts s "art" then s :: others else others)

/-- Embedding of `Document.articles_ids`: `sorted(list(set(...)))` over
the article ids of all areas. -/
def articlesIdsE (areas : List AreaState) : Except PyErr (List String) := do
  let ids ← collectArtIds areas
  .ok (dedupSortStr ids)

/-- Embedding of `Document.parts_coord`: dict comprehension
`{area.id: [area.type, ",".join(map(str, area.coords))] ...}` over all
areas. -/
def partsCoord (areas : List AreaState) : List (String × List String) :=
  areas.foldl (fun d a =>
    dset d a.id [a.type, String.intercalate "," (a.coords.map toString)]) []

/-- The values computed eagerly by `Document.__init__` that this
development tracks. -/
structure DocInit where
  numPages : Nat
  year : Option Int
  years : List Int
  numArticles : Nat
  areas : List (String × List AreaState)
  articlesIds : List String
deriving DecidableEq

/-- Embedding of `Document.__init__` (defoe/fmp/document.py lines 50-128)
together with the archive streams it opens, in order: it opens and parses
the METS stream, computes `num_pages` and the years (all from METS), and
then computes `num_articles = len(self.articles_ids)` — which walks
`self.areas`, constructing a `Page` (opening and parsing its ALTO
stream) for every page code. -/
def documentInitTrace (arch : ArchiveModel) : Except PyErr DocInit × List OpenEvent :=
  let ev0 := OpenEvent.docStream arch.docCode
  let m := arch.mets
  let numPages := (pageCodes m).length
  match parseYear m.dateText with
  | .error e => (.error e, [ev0])
  | .ok ys1 =>
    match parseYear m.placeText with
    | .error e => (.error e, [ev0])
    | .ok ys2 =>
      let years := pySort (cmpLe cmpInt) (ys1 ++ ys2)
      let year := years.head?
      let res := buildAreas arch (articleIdLookup m.linkGroups) (pageParts m.linkGroups)
          (pagesMetadata m)
      match res.1 with
      | .error e => (.error e, ev0 :: res.2)
      | .ok areasByPage =>
        match articlesIdsE ((areasByPage.map (fun p => p.2)).flatten) with
        | .error e => (.error e, ev0 :: res.2)
        | .ok artIds =>
          (.ok { numPages := numPages, year := year, years := years,
                 numArticles := artIds.length, areas := areasByPage,
                 articlesIds := artIds }, ev0 :: res.2)

/-! Section: `TextBlock` — bounding box (defoe/fmp/textblock.py lines
124-139), construction (lines 62-96) and `Area.textblock`
(defoe/fmp/area.py lines 175-192). -/

/-- One OCR token `(x, y, width, height, content)` as produced by
`TextBlock.tokens`. -/
structure Token where
  x : Int
  y : Int
  w : Int
  h : Int
  content : String
deriving DecidableEq

/-- Python `min` over a list (`none` for the empty list, where Python
raises). -/
def listMin? : List Int → Option Int
  | [] => none
  | x :: xs => some (xs.foldl min x)

/-- Python `max` over a list (`none` for the empty list, where Python
raises). -/
def listMax? : List Int → Option Int
  | [] => none
  | x :: xs => some (xs.foldl max x)

/-- The list `xs` of `TextBlock.get_tokens_bbox`: every token's `x`
followed by every token's `x + width`. -/
def tokenXs (tokens : List Token) : List Int :=
  tokens.map (fun t => t.x) ++ tokens.map (fun t => t.x + t.w)

/-- The list `ys` of `TextBlock.get_tokens_bbox`: every token's `y`
followed by every token's `y + height`. -/
def tokenYs (tokens : List Token) : List Int :=
  tokens.map (fun t => t.y) ++ tokens.map (fun t => t.y + t.h)

/-- Embedding of `TextBlock.get_tokens_bbox`: `(min(xs), min(ys),
max(xs), max(ys))`, falling back to the full page rectangle
`(0, 0, page.width, page.height)` when there are no tokens. -/
def getTokensBbox (tokens : List Token) (pageWidth pageHeight : Int) :
    Int × Int × Int × Int :=
  let xs := tokenXs tokens
  let ys := tokenYs tokens
  match listMin? xs, listMin? ys, listMax? xs, listMax? ys with
  | some a, some b, some c, some d => (a, b, c, d)
  | _, _, _, _ => (0, 0, pageWidth, pageHeight)

/-- The attributes of a `TextBlock` that `Area.textblock` resolution
depends on. -/
structure TBState where
  id : String
  shape : Option String
  coords : Option (List Int)
  pageArea : Option String
deriving DecidableEq

/-- Embedding of the area-matching step of `TextBlock.__init__`
(defoe/fmp/textblock.py lines 80-92): collect the page's areas whose id
equals the TextBlock's id; more than one raises `RuntimeError`; exactly
one fills shape/coords/page_area; none leaves them `None`. -/
def textblockInit (pageAreas : List AreaState) (tbId : String) : Except PyErr TBState :=
  let matching := pageAreas.filter (fun a => a.id == tbId)
  if 1 < matching.length then .error .runtimeError
  else
    match matching with
    | [a] => .ok { id := tbId, shape := some a.type, coords := some a.coords,
                   pageArea := a.pagePart }
    | _ => .ok { id := tbId, shape := none, coords := none, pageArea := none }

/-- Embedding of `list(self.page.textblocks)`: construct one `TextBlock`
per `TextBlock` element id, in document order; a `RuntimeError` from any
construction aborts the whole list. -/
def pageTextblocks (pageAreas : List AreaState) (tbIds : List String) :
    Except PyErr (List TBState) :=
  tbIds.mapM (textblockInit pageAreas)

/-- Embedding of `Area.textblock` (defoe/fmp/area.py lines 175-192): scan
the page's text blocks and keep the first whose id equals the Area's id
(`None` when no text block matches). -/
def areaTextblock (pageAreas : List AreaState) (tbIds : List String)
    (areaId : String) : Except PyErr (Option TBState) := do
  let tbs ← pageTextblocks pageAreas tbIds
  .ok (tbs.find? (fun tb => tb.id == areaId))

/-! Section: `TextBlock.match` (defoe/fmp/textblock.py lines 441-611) and
the matching constants (defoe/fmp/constants.py). The collaborator
functions (normalisation, lemmatisation, stemming, `re.search`, the four
`thefuzz` scorers) are parameters of the embedding. -/

/-- Embedding of `FUZZ_METHOD` from defoe/fmp/constants.py. -/
def fuzzMethodDefault : String := "token_set_ratio"

/-- Embedding of `MIN_RATIO` from defoe/fmp/constants.py. -/
def minRatioDefault : Rat := 85

/-- The four `thefuzz` scorers, supplied as collaborator functions; each
returns a score in 0..100 for `(processed token, match word)`. -/
structure FuzzFns where
  partialRatioFn : String → String → Nat
  ratioFn : String → String → Nat
  tokenSortRatioFn : String → String → Nat
  tokenSetRatioFn : String → String → Nat

/-- Embedding of the `fuzz_method` dispatch in `TextBlock.match`: an
unknown method name raises `SyntaxError`. -/
def pickFuzz (fns : FuzzFns) (method : String) :
    Except PyErr (String → String → Nat) :=
  if method == "partial_ratio" then .ok fns.partialRatioFn
  else if method == "ratio" then .ok fns.ratioFn
  else if method == "token_sort_ratio" then .ok fns.tokenSortRatioFn
  else if method == "token_set_ratio" then .ok fns.tokenSetRatioFn
  else .error .syntaxError

/-- Embedding of `TextBlock._process_tokens`: normalisation (with or
without numbers), lemmatisation and stemming compose sequentially on the
token contents, each stage toggled independently. -/
def processTokens (normalizeFn normalizeNumFn lemmatizeFn stemFn : String → String)
    (toks : List Token) (normalise includeNumbers lemmatise stem : Bool) :
    List Token :=
  let t1 :=
    if normalise && includeNumbers then
      toks.map (fun t => { t with content := normalizeFn t.content })
    else if normalise && !includeNumbers then
      toks.map (fun t => { t with content := normalizeNumFn t.content })
    else toks
  let t2 :=
    if lemmatise then t1.map (fun t => { t with content := lemmatizeFn t.content })
    else t1
  if stem then t2.map (fun t => { t with content := stemFn t.content })
  else t2

/-- One element of the list returned by `TextBlock.match`:
`(nav, ix, x, y, w, h, token, score)`. The navigation tuple is a list of
strings (archive filename, document code, page code, textblock id, plus
the textblock reference when `add_textblock` is set — all equal within
one call, so tuple comparison never reaches beyond it). -/
structure MatchResult where
  nav : List String
  ix : Nat
  x : Int
  y : Int
  w : Int
  h : Int
  token : String
  score : Nat
deriving DecidableEq

/-- Comparison level 8 of the Python tuple order: the score. -/
def cmpScore (a b : MatchResult) : Ordering :=
  cmpNat a.score b.score

/-- Comparison levels 7-8: token text, then score. -/
def cmpTok (a b : MatchResult) : Ordering :=
  (cmpStr a.token b.token).then (cmpScore a b)

/-- Comparison levels 6-8: height, then the rest. -/
def cmpH (a b : MatchResult) : Ordering :=
  (cmpInt a.h b.h).then (cmpTok a b)

/-- Comparison levels 5-8: width, then the rest. -/
def cmpW (a b : MatchResult) : Ordering :=
  (cmpInt a.w b.w).then (cmpH a b)

/-- Comparison levels 4-8: y, then the rest. -/
def cmpY (a b : MatchResult) : Ordering :=
  (cmpInt a.y b.y).then (cmpW a b)

/-- Comparison levels 3-8: x, then the rest. -/
def cmpX (a b : MatchResult) : Ordering :=
  (cmpInt a.x b.x).then (cmpY a b)

/-- Comparison levels 2-8: token index, then the rest. -/
def cmpIx (a b : MatchResult) : Ordering :=
  (cmpNat a.ix b.ix).then (cmpX a b)

/-- Python tuple comparison of two match results: lexicographic over
`(nav, ix, x, y, w, h, token, score)`. -/
def resultCmp (a b : MatchResult) : Ordering :=
  (cmpList cmpStr a.nav b.nav).then (cmpIx a b)

/-- The `sorted(matches)` order of regex mode: full tuple order. -/
def resultLe (a b : MatchResult) : Bool :=
  resultCmp a b != Ordering.gt

/-- The `sorted(matches, key=lambda x: x[7], reverse=sort_reverse)` order
of fuzzy mode. -/
def scoreSortLe (sortReverse : Bool) (a b : MatchResult) : Bool :=
  if sortReverse then b.score ≤ a.score else a.score ≤ b.score

/-- The shared loop shape of both scoring branches of `TextBlock.match`:
for each match word, one result tuple per processed token, scored by
`scoreOf match_word token_content`. -/
def buildMatches (nav : List String) (indexed : List (Nat × Token))
    (scoreOf : String → String → Nat) (matchWords : List String) : List MatchResult :=
  matchWords.foldl (fun acc mw =>
    acc ++ indexed.map (fun p =>
      { nav := nav, ix := p.1, x := p.2.x, y := p.2.y, w := p.2.w, h := p.2.h,
        token := p.2.content, score := scoreOf mw p.2.content })) []

/-- Embedding of `TextBlock.match` for a list-of-strings token argument.
`list(set(token))` deduplicates with unspecified order; the embedding
keeps first occurrences (`eraseDups`) — every property proved about the
result is independent of that order. `searchFn pat tok` models
`re.compile(pat, re.IGNORECASE).search(tok) is not None`. -/
def tbMatch (nav0 : List String) (tbId : String) (toks : List Token)
    (normalizeFn normalizeNumFn lemmatizeFn stemFn : String → String)
    (searchFn : String → String → Bool) (fns : FuzzFns)
    (token : List String)
    (normalise includeNumbers lemmatise stem : Bool)
    (fuzzMethod : String) (minRatio : Rat)
    (allResults sortResults sortReverse addTextblock regex : Bool) :
    Except PyErr (List MatchResult) := do
  let matchWords := token.eraseDups
  let nav := if addTextblock then nav0 ++ [tbId] else nav0
  let processed := processTokens normalizeFn normalizeNumFn lemmatizeFn stemFn
      toks normalise includeNumbers lemmatise stem
  let indexed := processed.enum
  let scored ←
    if regex then
      Except.ok (buildMatches nav indexed
        (fun mw tok => if searchFn mw tok then 100 else 0) matchWords)
    else do
      let fuzzFn ← pickFuzz fns fuzzMethod
      Except.ok (buildMatches nav indexed (fun mw tok => fuzzFn tok mw) matchWords)
  if allResults then
    if !sortResults then .ok scored
    else if regex then .ok (pySort resultLe scored)
    else .ok (pySort (scoreSortLe sortReverse) scored)
  else
    let kept :=
      if regex then scored.filter (fun r => r.score != 0)
      else scored.filter (fun r => minRatio ≤ (r.score : Rat))
    if !sortResults then .ok kept
    else if regex then .ok (pySort resultLe kept)
    else .ok (pySort (scoreSortLe sortReverse) kept)

/-! Section: decidable well-formedness conditions and concrete instances
used by the theorems below. -/

/-- Did the computation succeed (no exception)? -/
def exceptIsOk {ε α : Type} : Except ε α → Bool
  | .ok _ => true
  | .error _ => false

/-- Decidable well-formedness of a link-group list: every group is
nonempty, starts with a locator that is not area-like (`pa`/`phys`
prefixed after cleaning) followed only by area-like locators, the cleaned
group heads are pairwise distinct, and the cleaned area ids are globally
distinct. This is the "document is not malformed" condition of the
specification. -/
def linksWF (groups : List (List LocLink)) : Bool :=
  groups.all (fun g =>
    match g with
    | [] => false
    | h :: t =>
      !(isAreaId (cleanId h.1)) &&
        t.all (fun x => isAreaId (cleanId x.1))) &&
  decide ((groups.map (fun g => cleanId (g.headI.1))).Nodup) &&
  decide (((groups.map (fun g => g.tail.map (fun l => cleanId l.1))).flatten).Nodup)

/-- Decidable well-formedness of an archive for the lazy-loading theorem:
the year sources parse, every listed page opens and initialises, and
every page's areas scan without an exception. -/
def archWF (arch : ArchiveModel) : Bool :=
  exceptIsOk (parseYear arch.mets.dateText) &&
  exceptIsOk (parseYear arch.mets.placeText) &&
  (pagesMetadata arch.mets).all (fun p =>
    exceptIsOk (openAndInitPage arch p.1) &&
    exceptIsOk (scanAreasPage (articleIdLookup arch.mets.linkGroups)
      (pageParts arch.mets.linkGroups) p.1 p.2))

/-- Archive listing with two documents of one page each (FMP naming). -/
def listing3 : List String :=
  ["0001_01_mets.xml", "0001_01_0001.xml", "0002_02_mets.xml", "0002_02_0002.xml"]

/-- A `Page` element with no WIDTH attribute. -/
def pageXmlNoWidth : PageXml :=
  { widthAttr := none, heightAttr := some "200", pcAttr := some "90.1",
    textblockIds := [] }

/-- A `Page` element with a non-integer WIDTH attribute. -/
def pageXmlBadWidth : PageXml :=
  { widthAttr := some "wide", heightAttr := some "200", pcAttr := some "90.1",
    textblockIds := [] }

/-- A `Page` element with a valid WIDTH but no HEIGHT attribute. -/
def pageXmlNoHeight : PageXml :=
  { widthAttr := some "100", heightAttr := none, pcAttr := some "90.1",
    textblockIds := [] }

/-- A `Page` element with a valid WIDTH but a non-integer HEIGHT
attribute. -/
def pageXmlBadHeight : PageXml :=
  { widthAttr := some "100", heightAttr := some "tall", pcAttr := some "90.1",
    textblockIds := [] }

/-- A well-formed `Page` element whose PC attribute is missing. -/
def pageXmlNoPc : PageXml :=
  { widthAttr := some "100", heightAttr := some "50", pcAttr := none,
    textblockIds := [] }

/-- A well-formed `Page` element. -/
def pageXmlOk : PageXml :=
  { widthAttr := some "100", heightAttr := some "200", pcAttr := some "91.5",
    textblockIds := ["pa0001001"] }

/-- A file pointer child for the linked area. -/
def fptrLinked : FptrElem :=
  { img := "img1", shapeType := "RECT", coords := "0,0,10,10" }

/-- A file pointer child for the area with no structural link. -/
def fptrUnlinked : FptrElem :=
  { img := "img2", shapeType := "RECT", coords := "10,0,20,10" }

/-- An area division referenced by the structural links. -/
def areaDivLinked : AreaDiv :=
  { id := "pa0001001", typ := "P", category := "c", fptr := some [fptrLinked] }

/-- An area division that no structural link references. -/
def areaDivUnlinked : AreaDiv :=
  { id := "pa0001002", typ := "P", category := "c", fptr := some [fptrUnlinked] }

/-- Structural links where only `pa0001001` is linked. -/
def linkGroups8 : List (List LocLink) :=
  [[("#art0001", "art"), ("#pa0001001", "page1 area1")]]

/-- The single page division of `arch8`. -/
def pageDiv8 : PageDiv :=
  { attr0 := "pg1", attr1 := "1", areaDivs := [areaDivLinked, areaDivUnlinked] }

/-- The METS stream of `arch8`. -/
def mets8 : MetsDoc :=
  { physicalPages := [pageDiv8], linkGroups := linkGroups8,
    dateText := some "1862", placeText := none }

/-- An archive whose document has an area (`pa0001002`) that no
structural link references. -/
def arch8 : ArchiveModel :=
  { docCode := "0001_01", mets := mets8, pages := [("0001", pageXmlOk)] }

/-- Structural links covering both pages of `arch2`. -/
def linkGroups2 : List (List LocLink) :=
  [[("#art0001", "art"), ("#pa0001001", "page1 area1"), ("#pa0002001", "page2 area1")]]

/-- The area division of the second page of `arch2`. -/
def areaDivPage2 : AreaDiv :=
  { id := "pa0002001", typ := "P", category := "c", fptr := some [fptrUnlinked] }

/-- The two page divisions of `arch2`. -/
def pageDiv2a : PageDiv :=
  { attr0 := "pg1", attr1 := "1", areaDivs := [areaDivLinked] }

/-- The second page division of `arch2`. -/
def pageDiv2b : PageDiv :=
  { attr0 := "pg2", attr1 := "2", areaDivs := [areaDivPage2] }

/-- The METS stream of `arch2`. -/
def mets2 : MetsDoc :=
  { physicalPages := [pageDiv2a, pageDiv2b], linkGroups := linkGroups2,
    dateText := some "1862", placeText := none }

/-- A fully well-formed two-page archive (every area linked). -/
def arch2 : ArchiveModel :=
  { docCode := "0001_01", mets := mets2,
    pages := [("0001", pageXmlOk), ("0002", pageXmlOk)] }

/-- The single area of a page on which two TextBlock elements share the
id `tb1`. -/
def areaTb1 : AreaState :=
  { id := "tb1", type := "RECT", category := "c", img := "img", pageCode := "0001",
    coords := [0, 0, 10, 10], x0 := 0, y0 := 0, x1 := 10, y1 := 10,
    articleId := some "art0001", pagePart := some "page1 area1" }

/-! Section: theorems. -/

/-- C4: the static year parser satisfies exactly
`parse_year("1862, [1861]") == [1861, 1862]`,
`parse_year("1847 [1846, 47]") == [1846, 1847]`,
`parse_year("1873-80") == [1873, 1880]`,
`parse_year("1870-09-01") == [1870]`, and `parse_year(None) == []`
(an empty list, never an exception, on `None` input). -/
theorem C4_parse_year_examples :
    parseYear (some "1862, [1861]") = .ok [1861, 1862] ∧
    parseYear (some "1847 [1846, 47]") = .ok [1846, 1847] ∧
    parseYear (some "1873-80") = .ok [1873, 1880] ∧
    parseYear (some "1870-09-01") = .ok [1870] ∧
    parseYear none = .ok [] :=
  ⟨rfl, rfl, rfl, rfl, rfl⟩

/-- C3: on a listing with two documents of one page each, the
`AltoArchive` constructor of defoe/nlsArticles/archive_combine.py places
both page matches' full filenames (`match.group(0)`) under the first
document code, leaving the second document's entry empty — it does not
group each page code (`match.group(2)`) under the document code captured
from the same filename (`match.group(1)`), which is what the
specification describes (and what the sibling `defoe/alto/archive.py`
does). -/
theorem C3_archive_grouping_diverges :
    altoArchiveInit listing3 =
      .ok [("0001_01", ["0001_01_0001.xml", "0002_02_0002.xml"]), ("0002_02", [])] ∧
    specGroupPages listing3 = [("0001_01", ["0001"]), ("0002_02", ["0002"])] ∧
    altoArchiveInit listing3 ≠ .ok (specGroupPages listing3) :=
  ⟨rfl, rfl, by decide⟩

/-- C7 (counterexample): a `Page` element with a missing WIDTH attribute
makes `Page.__init__` raise `TypeError` (`int(None)`) instead of
constructing the page with width 0 as the claim states. -/
theorem C7_counterexample :
    pageInit "0001" pageXmlNoWidth = .error PyErr.typeError ∧
    pageInit "0001" pageXmlBadWidth = .error PyErr.valueError :=
  ⟨rfl, rfl⟩

/-- C7 (amended): `Page.__init__` raises `TypeError` on a missing WIDTH
or HEIGHT attribute and `ValueError` on a non-integer one (width is
parsed before height, so the height cases are stated under a
successfully parsed width); only the page-confidence attribute falls
back to zero on a missing or invalid value. -/
theorem C7_width_height_raise (code : String) (px : PageXml) :
    (px.widthAttr = none → pageInit code px = .error .typeError) ∧
    (∀ s, px.widthAttr = some s → pyInt s = .error .valueError →
      pageInit code px = .error .valueError) ∧
    (∀ w, pyIntAttr px.widthAttr = .ok w → px.heightAttr = none →
      pageInit code px = .error .typeError) ∧
    (∀ w s, pyIntAttr px.widthAttr = .ok w → px.heightAttr = some s →
      pyInt s = .error .valueError → pageInit code px = .error .valueError) ∧
    (∀ w h, pyIntAttr px.widthAttr = .ok w → pyIntAttr px.heightAttr = .ok h →
      pageInit code px =
        .ok { code := code, width := w, height := h,
              pageConfidence := pageConfVal px.pcAttr,
              textblockIds := px.textblockIds }) ∧
    (px.pcAttr = none → pageConfVal px.pcAttr = 0) ∧
    (∀ s e, px.pcAttr = some s → pyFloat s = .error e → pageConfVal px.pcAttr = 0) := by
  refine ⟨?_, ?_, ?_, ?_, ?_, ?_, ?_⟩
  · intro h
    simp only [pageInit, pyIntAttr, h]
    rfl
  · intro s hs hv
    simp only [pageInit, pyIntAttr, hs, hv]
    rfl
  · intro w hw hh
    simp only [pageInit]
    rw [hw, hh]
    simp only [pyIntAttr]
    rfl
  · intro w s hw hs hv
    simp only [pageInit]
    rw [hw, hs]
    simp only [pyIntAttr, hv]
    rfl
  · intro w h hw hh
    simp only [pageInit, hw, hh]
    rfl
  · intro h
    simp [pageConfVal, h]
  · intro s e hs he
    simp [pageConfVal, hs, he]

/-- C7 (witness for the amended theorem): concrete pages exercising the
missing-WIDTH and non-integer-WIDTH errors, the missing-HEIGHT and
non-integer-HEIGHT errors under a valid WIDTH, the success case, and
the PC fallback. -/
theorem C7_width_height_raise_witness :
    pageInit "0005" pageXmlNoWidth = .error .typeError ∧
    pageInit "0002" pageXmlBadWidth = .error .valueError ∧
    pageInit "0003" pageXmlNoHeight = .error .typeError ∧
    pageInit "0004" pageXmlBadHeight = .error .valueError ∧
    pageInit "0001" pageXmlNoPc =
      .ok { code := "0001", width := 100, height := 50,
            pageConfidence := pageConfVal pageXmlNoPc.pcAttr,
            textblockIds := [] } ∧
    pageConfVal pageXmlNoPc.pcAttr = 0 :=
  ⟨(C7_width_height_raise "0005" pageXmlNoWidth).1 rfl,
    (C7_width_height_raise "0002" pageXmlBadWidth).2.1 "wide" rfl rfl,
    (C7_width_height_raise "0003" pageXmlNoHeight).2.2.1 100 rfl rfl,
    (C7_width_height_raise "0004" pageXmlBadHeight).2.2.2.1 100 "tall" rfl rfl rfl,
    (C7_width_height_raise "0001" pageXmlNoPc).2.2.2.2.1 100 50 rfl rfl,
    (C7_width_height_raise "0001" pageXmlNoPc).2.2.2.2.2.1 rfl⟩

/-- C8: constructing an `Area` whose id has no entry in the structural
link lookup succeeds with `article_id = None`, but the document traversal
does raise because of it: `Document.articles_ids` evaluates
`area.article_id.startswith("art")`, which on `None` raises
`AttributeError` — during `Document.__init__` itself (via
`num_articles`). Such areas are not silently excluded. -/
theorem C8_unlinked_area_raises :
    (areaInit [("pa0001001", "art0001")] (pageParts linkGroups8) "0001"
        areaDivUnlinked fptrUnlinked).map (fun st => st.articleId) = .ok none ∧
    articleIdLookup linkGroups8 = .ok [("pa0001001", "art0001")] ∧
    (documentInitTrace arch8).1 = .error PyErr.attributeError :=
  ⟨rfl, rfl, rfl⟩

/-- C2 (counterexample): constructing the document of the two-page
archive `arch2` opens and parses both page (ALTO) streams, contradicting
the claim that document construction parses only the METS metadata. -/
theorem C2_counterexample :
    (documentInitTrace arch2).2 =
      [OpenEvent.docStream "0001_01", OpenEvent.pageStream "0001_01" "0001",
        OpenEvent.pageStream "0001_01" "0002"] ∧
    OpenEvent.pageStream "0001_01" "0001" ∈ (documentInitTrace arch2).2 :=
  ⟨rfl, by decide⟩

/-- A key that is not among the dict keys is not found. -/
theorem dget?_eq_none_of_not_mem {α : Type} {d : List (String × α)} {k : String}
    (h : k ∉ dkeys d) : dget? d k = none := by
  induction d with
  | nil => rfl
  | cons p d ih =>
    simp only [dkeys, List.map_cons, List.mem_cons, not_or] at h
    simp only [dget?, List.find?]
    have hne : (p.1 == k) = false := by
      simp only [beq_eq_false_iff_ne, ne_eq]
      exact fun hh => h.1 hh.symm
    rw [hne]
    exact ih (by simpa [dkeys] using h.2)

/-- A key outside the dict keys matches no entry. -/
theorem keyFresh_any_false {α : Type} {d : List (String × α)} {k : String}
    (h : k ∉ dkeys d) : d.any (fun p => p.1 == k) = false := by
  simp only [dkeys] at h
  rw [List.any_eq_false]
  intro p hp
  cases hbe : (p.1 == k) with
  | false => simp
  | true =>
    exact (h (beq_iff_eq.mp hbe ▸ List.mem_map_of_mem (fun q => q.1) hp)).elim

/-- Assigning a fresh key appends the entry. -/
theorem dset_fresh {α : Type} {d : List (String × α)} {k : String} (v : α)
    (h : k ∉ dkeys d) : dset d k v = d ++ [(k, v)] := by
  unfold dset
  rw [keyFresh_any_false h]
  simp

/-- Lookup skips a block of entries whose keys differ from `k`. -/
theorem dget?_append_right {α : Type} {d : List (String × α)} {k : String}
    (l : List (String × α)) (h : k ∉ dkeys d) :
    dget? (d ++ l) k = dget? l k := by
  induction d with
  | nil => rfl
  | cons p d ih =>
    simp only [dkeys, List.map_cons, List.mem_cons, not_or] at h
    simp only [List.cons_append, dget?, List.find?]
    have hne : (p.1 == k) = false := by
      simp only [beq_eq_false_iff_ne, ne_eq]
      exact fun hh => h.1 hh.symm
    rw [hne]
    exact ih (by simpa [dkeys] using h.2)

/-- Updating the entry that sits after a fresh-key block replaces it in
place. -/
theorem dset_append_last {α : Type} {d : List (String × α)} {k : String} (v w : α)
    (h : k ∉ dkeys d) : dset (d ++ [(k, v)]) k w = d ++ [(k, w)] := by
  have hany : ((d ++ [(k, v)]).any fun p => p.1 == k) = true := by
    simp [List.any_append]
  unfold dset
  rw [if_pos hany, List.map_append]
  have hfr := keyFresh_any_false h
  rw [List.any_eq_false] at hfr
  have hda : List.map (fun p => if (p.1 == k) = true then (k, w) else p) d = d := by
    have hcong := List.map_congr_left (l := d)
      (f := fun p => if (p.1 == k) = true then (k, w) else p) (g := fun p => p)
      (by
        intro p hp
        have hbe : (p.1 == k) = false := by
          cases hbe2 : (p.1 == k) with
          | false => rfl
          | true => exact absurd hbe2 (by simpa using hfr p hp)
        simp [hbe])
    simpa using hcong
  rw [hda]
  simp

/-- In a dict with pairwise-distinct keys, lookup agrees with list
membership. -/
theorem dget?_eq_some_iff_mem {α : Type} {d : List (String × α)} {k : String} {v : α}
    (hnd : (dkeys d).Nodup) : dget? d k = some v ↔ (k, v) ∈ d := by
  induction d with
  | nil => simp [dget?]
  | cons p d ih =>
    obtain ⟨k1, v1⟩ := p
    simp only [dkeys, List.map_cons, List.nodup_cons] at hnd
    by_cases hk : k1 = k
    · subst hk
      constructor
      · intro hv
        have hv1 : v1 = v := by simpa [dget?, List.find?] using hv
        subst hv1
        exact List.mem_cons_self _ _
      · intro hv
        rcases List.mem_cons.mp hv with hv | hv
        · have hv2 : v = v1 := (Prod.ext_iff.mp hv).2
          subst hv2
          simp [dget?, List.find?]
        · exact absurd (List.mem_map_of_mem (fun q => q.1) hv) hnd.1
    · have hne : (k1 == k) = false := by simp [hk]
      have hstep : dget? ((k1, v1) :: d) k = dget? d k := by
        simp [dget?, List.find?, hne]
      rw [hstep, ih hnd.2]
      constructor
      · intro hv
        exact List.mem_cons_of_mem _ hv
      · intro hv
        rcases List.mem_cons.mp hv with hv | hv
        · exact absurd (Prod.ext_iff.mp hv).1.symm hk
        · exact hv

/-- Keys of an appended dict. -/
theorem dkeys_append {α : Type} (d e : List (String × α)) :
    dkeys (d ++ e) = dkeys d ++ dkeys e := by
  simp [dkeys]

/-- Folding `min` only decreases the accumulator. -/
theorem foldl_min_le_init (xs : List Int) (a : Int) : xs.foldl min a ≤ a := by
  induction xs generalizing a with
  | nil => exact le_refl a
  | cons c cs ih => exact le_trans (ih (min a c)) (min_le_left a c)

/-- Folding `min` bounds every member. -/
theorem foldl_min_le_mem {xs : List Int} {b : Int} (h : b ∈ xs) :
    ∀ a : Int, xs.foldl min a ≤ b := by
  induction xs with
  | nil => cases h
  | cons c cs ih =>
    intro a
    rcases List.mem_cons.mp h with rfl | hmem
    · exact le_trans (foldl_min_le_init cs (min a b)) (min_le_right a b)
    · exact ih hmem (min a c)

/-- Folding `max` only increases the accumulator. -/
theorem le_foldl_max_init (xs : List Int) (a : Int) : a ≤ xs.foldl max a := by
  induction xs generalizing a with
  | nil => exact le_refl a
  | cons c cs ih => exact le_trans (le_max_left a c) (ih (max a c))

/-- Folding `max` bounds every member from below. -/
theorem le_foldl_max_mem {xs : List Int} {b : Int} (h : b ∈ xs) :
    ∀ a : Int, b ≤ xs.foldl max a := by
  induction xs with
  | nil => cases h
  | cons c cs ih =>
    intro a
    rcases List.mem_cons.mp h with rfl | hmem
    · exact le_trans (le_max_right a b) (le_foldl_max_init cs (max a b))
    · exact ih hmem (max a c)

/-- The Python `min` of a list bounds every member. -/
theorem listMin?_le {xs : List Int} {m b : Int} (hm : listMin? xs = some m)
    (hb : b ∈ xs) : m ≤ b := by
  cases xs with
  | nil => cases hb
  | cons x xr =>
    simp only [listMin?, Option.some.injEq] at hm
    subst hm
    rcases List.mem_cons.mp hb with rfl | hmem
    · exact foldl_min_le_init xr b
    · exact foldl_min_le_mem hmem x

/-- Every member bounds the Python `max` of a list from below. -/
theorem le_listMax? {xs : List Int} {M b : Int} (hM : listMax? xs = some M)
    (hb : b ∈ xs) : b ≤ M := by
  cases xs with
  | nil => cases hb
  | cons x xr =>
    simp only [listMax?, Option.some.injEq] at hM
    subst hM
    rcases List.mem_cons.mp hb with rfl | hmem
    · exact le_foldl_max_init xr b
    · exact le_foldl_max_mem hmem x

/-- The `min` of a nonempty list is at most its `max`. -/
theorem listMin?_le_listMax? {xs : List Int} {m M : Int}
    (hm : listMin? xs = some m) (hM : listMax? xs = some M) : m ≤ M := by
  cases xs with
  | nil => cases hm
  | cons x xr =>
    simp only [listMin?, Option.some.injEq] at hm
    simp only [listMax?, Option.some.injEq] at hM
    subst hm
    subst hM
    exact le_trans (foldl_min_le_init xr x) (le_foldl_max_init xr x)

/-- Membership in a stable insertion. -/
theorem mem_pyInsert {α : Type} (le : α → α → Bool) (a x : α) (l : List α) :
    x ∈ pyInsert le a l ↔ x = a ∨ x ∈ l := by
  induction l with
  | nil => simp [pyInsert]
  | cons b l ih =>
    simp only [pyInsert]
    by_cases hle : le a b = true
    · rw [if_pos hle]
      simp [List.mem_cons]
    · rw [if_neg hle]
      simp only [List.mem_cons, ih]
      tauto

/-- Inserting into a sorted list keeps it sorted (for a total transitive
boolean relation). -/
theorem pyInsert_pairwise {α : Type} (le : α → α → Bool)
    (htot : ∀ a b, le a b = true ∨ le b a = true)
    (htrans : ∀ a b c, le a b = true → le b c = true → le a c = true)
    (a : α) {l : List α} (hl : l.Pairwise (fun x y => le x y = true)) :
    (pyInsert le a l).Pairwise (fun x y => le x y = true) := by
  induction l with
  | nil => simp [pyInsert]
  | cons b l ih =>
    rcases List.pairwise_cons.mp hl with ⟨hb, hl2⟩
    simp only [pyInsert]
    by_cases hle : le a b = true
    · rw [if_pos hle]
      refine List.pairwise_cons.mpr ⟨?_, hl⟩
      intro y hy
      rcases List.mem_cons.mp hy with rfl | hmem
      · exact hle
      · exact htrans a b y hle (hb y hmem)
    · rw [if_neg hle]
      refine List.pairwise_cons.mpr ⟨?_, ih hl2⟩
      intro y hy
      rcases (mem_pyInsert le a y l).mp hy with rfl | hmem
      · rcases htot y b with hyb | hby
        · exact absurd hyb hle
        · exact hby
      · exact hb y hmem

/-- Stable insertion sort sorts (for a total transitive boolean
relation). -/
theorem pySort_sorted {α : Type} (le : α → α → Bool)
    (htot : ∀ a b, le a b = true ∨ le b a = true)
    (htrans : ∀ a b c, le a b = true → le b c = true → le a c = true)
    (l : List α) : (pySort le l).Pairwise (fun x y => le x y = true) := by
  induction l with
  | nil => exact List.Pairwise.nil
  | cons hd tl ih => exact pyInsert_pairwise le htot htrans hd ih

/-- Sorting does not change membership. -/
theorem mem_pySort {α : Type} (le : α → α → Bool) (x : α) (l : List α) :
    x ∈ pySort le l ↔ x ∈ l := by
  induction l with
  | nil => simp [pySort]
  | cons hd tl ih =>
    simp only [pySort, mem_pyInsert, List.mem_cons, ih]

/-- C5: for a text block with at least one token, `get_tokens_bbox`
returns `(min_x, min_y, max_x, max_y)` bounding every token's `x`, `y`,
`x + width` and `y + height` (hence `min ≤ max` on each axis); for an
empty block it returns the full page rectangle
`(0, 0, page.width, page.height)`. -/
theorem C5_tokens_bbox (tokens : List Token) (pw ph : Int) :
    (tokens = [] → getTokensBbox tokens pw ph = (0, 0, pw, ph)) ∧
    (∀ t ∈ tokens,
      (getTokensBbox tokens pw ph).1 ≤ t.x ∧
      (getTokensBbox tokens pw ph).2.1 ≤ t.y ∧
      t.x + t.w ≤ (getTokensBbox tokens pw ph).2.2.1 ∧
      t.y + t.h ≤ (getTokensBbox tokens pw ph).2.2.2) ∧
    (tokens ≠ [] →
      (getTokensBbox tokens pw ph).1 ≤ (getTokensBbox tokens pw ph).2.2.1 ∧
      (getTokensBbox tokens pw ph).2.1 ≤ (getTokensBbox tokens pw ph).2.2.2) := by
  refine ⟨?_, ?_, ?_⟩
  · intro h
    subst h
    rfl
  · intro t ht
    cases tokens with
    | nil => cases ht
    | cons t0 ts =>
      obtain ⟨mnx, hmnx⟩ : ∃ v, listMin? (tokenXs (t0 :: ts)) = some v := ⟨_, rfl⟩
      obtain ⟨mny, hmny⟩ : ∃ v, listMin? (tokenYs (t0 :: ts)) = some v := ⟨_, rfl⟩
      obtain ⟨mxx, hmxx⟩ : ∃ v, listMax? (tokenXs (t0 :: ts)) = some v := ⟨_, rfl⟩
      obtain ⟨mxy, hmxy⟩ : ∃ v, listMax? (tokenYs (t0 :: ts)) = some v := ⟨_, rfl⟩
      have hbb : getTokensBbox (t0 :: ts) pw ph = (mnx, mny, mxx, mxy) := by
        simp only [getTokensBbox, hmnx, hmny, hmxx, hmxy]
      rw [hbb]
      have hxmem : t.x ∈ tokenXs (t0 :: ts) := by
        simp only [tokenXs, List.mem_append]
        exact Or.inl (List.mem_map_of_mem (fun t => t.x) ht)
      have hymem : t.y ∈ tokenYs (t0 :: ts) := by
        simp only [tokenYs, List.mem_append]
        exact Or.inl (List.mem_map_of_mem (fun t => t.y) ht)
      have hxwmem : t.x + t.w ∈ tokenXs (t0 :: ts) := by
        simp only [tokenXs, List.mem_append]
        exact Or.inr (List.mem_map_of_mem (fun t => t.x + t.w) ht)
      have hyhmem : t.y + t.h ∈ tokenYs (t0 :: ts) := by
        simp only [tokenYs, List.mem_append]
        exact Or.inr (List.mem_map_of_mem (fun t => t.y + t.h) ht)
      exact ⟨listMin?_le hmnx hxmem, listMin?_le hmny hymem,
        le_listMax? hmxx hxwmem, le_listMax? hmxy hyhmem⟩
  · intro h
    cases tokens with
    | nil => exact absurd rfl h
    | cons t0 ts =>
      obtain ⟨mnx, hmnx⟩ : ∃ v, listMin? (tokenXs (t0 :: ts)) = some v := ⟨_, rfl⟩
      obtain ⟨mny, hmny⟩ : ∃ v, listMin? (tokenYs (t0 :: ts)) = some v := ⟨_, rfl⟩
      obtain ⟨mxx, hmxx⟩ : ∃ v, listMax? (tokenXs (t0 :: ts)) = some v := ⟨_, rfl⟩
      obtain ⟨mxy, hmxy⟩ : ∃ v, listMax? (tokenYs (t0 :: ts)) = some v := ⟨_, rfl⟩
      have hbb : getTokensBbox (t0 :: ts) pw ph = (mnx, mny, mxx, mxy) := by
        simp only [getTokensBbox, hmnx, hmny, hmxx, hmxy]
      rw [hbb]
      exact ⟨listMin?_le_listMax? hmnx hmxx, listMin?_le_listMax? hmny hmxy⟩

/-- C5 (witness): a one-token block and the empty block, evaluated
concretely. -/
theorem C5_tokens_bbox_witness :
    (([({ x := 1, y := 2, w := 3, h := 4, content := "w" } : Token)]) ≠ []) ∧
    ((getTokensBbox [{ x := 1, y := 2, w := 3, h := 4, content := "w" }] 7 9).1 ≤
        (getTokensBbox [{ x := 1, y := 2, w := 3, h := 4, content := "w" }] 7 9).2.2.1 ∧
      (getTokensBbox [{ x := 1, y := 2, w := 3, h := 4, content := "w" }] 7 9).2.1 ≤
        (getTokensBbox [{ x := 1, y := 2, w := 3, h := 4, content := "w" }] 7 9).2.2.2) ∧
    getTokensBbox [] 7 9 = (0, 0, 7, 9) :=
  ⟨by decide,
    (C5_tokens_bbox [{ x := 1, y := 2, w := 3, h := 4, content := "w" }] 7 9).2.2
      (by decide),
    (C5_tokens_bbox [] 7 9).1 rfl⟩

/-- Folding `dset` with pairwise-distinct fresh keys appends the
entries. -/
theorem foldl_dset_fresh {α β : Type} (key : β → String) (val : β → α) :
    ∀ (items : List β) (acc : List (String × α)),
      (∀ b ∈ items, key b ∉ dkeys acc) → (items.map key).Nodup →
      items.foldl (fun d b => dset d (key b) (val b)) acc =
        acc ++ items.map (fun b => (key b, val b)) := by
  intro items
  induction items with
  | nil => intro acc _ _; simp
  | cons b items ih =>
    intro acc hfresh hnd
    simp only [List.map_cons, List.nodup_cons] at hnd
    have hb : key b ∉ dkeys acc := hfresh b (List.mem_cons_self _ _)
    simp only [List.foldl_cons]
    rw [dset_fresh (val b) hb]
    rw [ih (acc ++ [(key b, val b)]) ?_ hnd.2]
    · simp
    · intro b2 hb2
      rw [dkeys_append]
      simp only [List.mem_append, not_or]
      refine ⟨hfresh b2 (List.mem_cons_of_mem _ hb2), ?_⟩
      simp only [dkeys, List.map_cons, List.map_nil, List.mem_cons, List.not_mem_nil,
        or_false]
      intro heq
      exact hnd.1 (heq ▸ List.mem_map_of_mem key hb2)

/-- With pairwise-distinct area ids, `parts_coord` maps each area's id to
its `[shape, joined coordinates]` pair. -/
theorem partsCoord_lookup {areas : List AreaState}
    (hnd : (areas.map (fun a => a.id)).Nodup) {a : AreaState} (ha : a ∈ areas) :
    dget? (partsCoord areas) a.id =
      some [a.type, String.intercalate "," (a.coords.map toString)] := by
  have heq : partsCoord areas =
      areas.map (fun a => (a.id, [a.type, String.intercalate "," (a.coords.map toString)])) := by
    have := foldl_dset_fresh (fun a : AreaState => a.id)
      (fun a => [a.type, String.intercalate "," (a.coords.map toString)]) areas []
      (by intro b _ hb; cases hb) hnd
    simpa [partsCoord] using this
  rw [heq]
  rw [dget?_eq_some_iff_mem]
  · exact List.mem_map_of_mem _ ha
  · have : dkeys (areas.map (fun a =>
        (a.id, [a.type, String.intercalate "," (a.coords.map toString)]))) =
        areas.map (fun a => a.id) := by
      simp [dkeys, List.map_map]
    rw [this]
    exact hnd

/-- C10: whenever `Area.__init__` succeeds, the stored `type` attribute is
the file pointer element's second attribute value (`f.shapeType`), which
overwrote the area division's own TYPE attribute read first (the result
does not depend on `d.typ`); consequently, in a document whose area ids
are pairwise distinct, `parts_coord` records that file-pointer-derived
value as the part's shape. -/
theorem C10_area_type_from_fptr (lookup pp : List (String × String)) (pc : String)
    (d : AreaDiv) (f : FptrElem) (st : AreaState)
    (hok : areaInit lookup pp pc d f = .ok st) :
    st.type = f.shapeType ∧ st.id = d.id ∧ st.category = d.category ∧
    ∀ areas : List AreaState, (areas.map (fun a => a.id)).Nodup → st ∈ areas →
      dget? (partsCoord areas) st.id =
        some [f.shapeType, String.intercalate "," (st.coords.map toString)] := by
  unfold areaInit at hok
  cases hm : (splitChar ',' f.coords.data).mapM (fun cs => pyInt (⟨cs⟩ : String)) with
  | error e =>
    rw [hm] at hok
    cases hok
  | ok cList =>
    rw [hm] at hok
    match cList, hok with
    | [cx0, cy0, cx1, cy1], hok =>
      cases Except.ok.inj hok
      refine ⟨rfl, rfl, rfl, ?_⟩
      intro areas hnd ha
      exact partsCoord_lookup hnd ha

/-- C10 (witness): the overwrite observed on a concrete area whose
division TYPE (`"P"`) differs from the file pointer's shape type
(`"RECT"`). -/
theorem C10_area_type_from_fptr_witness :
    ∃ st, areaInit [("pa0001001", "art0001")] [] "0001" areaDivLinked fptrLinked = .ok st ∧
      st.type = "RECT" ∧ areaDivLinked.typ = "P" ∧
      dget? (partsCoord [st]) st.id = some ["RECT", "0,0,10,10"] := by
  obtain ⟨st, hok⟩ : ∃ st,
      areaInit [("pa0001001", "art0001")] [] "0001" areaDivLinked fptrLinked = .ok st :=
    ⟨_, rfl⟩
  have h := C10_area_type_from_fptr [("pa0001001", "art0001")] [] "0001"
    areaDivLinked fptrLinked st hok
  cases Except.ok.inj hok
  refine ⟨_, rfl, h.1, rfl, ?_⟩
  rw [h.2.2.2 [_] (by simp) (List.mem_cons_self _ _)]
  rfl

/-- Constructing one TextBlock either raises `RuntimeError` (more than
one area shares its id) or succeeds with the TextBlock's own id. -/
theorem textblockInit_spec (pa : List AreaState) (t : String) :
    (1 < (pa.filter (fun a => a.id == t)).length ∧
      textblockInit pa t = .error .runtimeError) ∨
    ((pa.filter (fun a => a.id == t)).length ≤ 1 ∧
      ∃ tb, textblockInit pa t = .ok tb ∧ tb.id = t) := by
  by_cases hlen : 1 < (pa.filter (fun a => a.id == t)).length
  · left
    refine ⟨hlen, ?_⟩
    unfold textblockInit
    rw [if_pos hlen]
  · right
    refine ⟨le_of_not_lt hlen, ?_⟩
    unfold textblockInit
    rw [if_neg hlen]
    cases hfil : pa.filter (fun a => a.id == t) with
    | nil => exact ⟨_, rfl, rfl⟩
    | cons a rest =>
      cases rest with
      | nil => exact ⟨_, rfl, rfl⟩
      | cons b rest2 =>
        exfalso
        rw [hfil] at hlen
        simp at hlen

/-- The page's TextBlock list raises `RuntimeError` exactly when some
TextBlock id on the page is shared by more than one area; otherwise it
returns one TextBlock per id, in order. -/
theorem pageTextblocks_spec (pa : List AreaState) (tbIds : List String) :
    (pageTextblocks pa tbIds = .error PyErr.runtimeError ↔
      ∃ t ∈ tbIds, 1 < (pa.filter (fun a => a.id == t)).length) ∧
    ((∀ t ∈ tbIds, (pa.filter (fun a => a.id == t)).length ≤ 1) →
      ∃ tbs, pageTextblocks pa tbIds = .ok tbs ∧
        tbs.map (fun tb => tb.id) = tbIds) := by
  induction tbIds with
  | nil =>
    constructor
    · constructor
      · intro h
        cases h
      · intro h
        simp at h
    · intro _
      exact ⟨[], rfl, rfl⟩
  | cons t rest ih =>
    have hcons : pageTextblocks pa (t :: rest) =
        (textblockInit pa t) >>= (fun tb =>
          (pageTextblocks pa rest) >>= (fun tbs => pure (tb :: tbs))) := by
      simp only [pageTextblocks]
      rw [List.mapM_cons]
    constructor
    · rcases textblockInit_spec pa t with ⟨hlen, herr⟩ | ⟨hle, tb, hok, hid⟩
      · constructor
        · intro _
          exact ⟨t, List.mem_cons_self _ _, hlen⟩
        · intro _
          rw [hcons, herr]
          rfl
      · constructor
        · intro h
          rw [hcons, hok] at h
          cases hrest : pageTextblocks pa rest with
          | error e =>
            rw [hrest] at h
            have he : e = PyErr.runtimeError := by
              cases h
              rfl
            subst he
            obtain ⟨t2, ht2, hl2⟩ := (ih.1).mp hrest
            exact ⟨t2, List.mem_cons_of_mem _ ht2, hl2⟩
          | ok tbs =>
            rw [hrest] at h
            cases h
        · intro ⟨t2, ht2, hl2⟩
          rcases List.mem_cons.mp ht2 with rfl | ht2m
          · exact absurd hl2 (not_lt_of_le hle)
          · rw [hcons, hok]
            have hrest := (ih.1).mpr ⟨t2, ht2m, hl2⟩
            rw [hrest]
            rfl
    · intro hall
      rcases textblockInit_spec pa t with ⟨hlen, _⟩ | ⟨_, tb, hok, hid⟩
      · exact absurd hlen (not_lt_of_le (hall t (List.mem_cons_self _ _)))
      · obtain ⟨tbs, htbs, hids⟩ :=
          ih.2 (fun t2 ht2 => hall t2 (List.mem_cons_of_mem _ ht2))
        refine ⟨tb :: tbs, ?_, ?_⟩
        · rw [hcons, hok, htbs]
          rfl
        · simp [hids, hid]

/-- C9 (counterexample): a page with two TextBlock elements both bearing
the single area's id `tb1` — `Area.textblock` does not raise; it returns
the first matching TextBlock. The `RuntimeError` of the source is raised
for duplicate areas, not duplicate TextBlocks. -/
theorem C9_counterexample :
    areaTextblock [areaTb1] ["tb1", "tb1"] "tb1" =
      .ok (some { id := "tb1", shape := some "RECT", coords := some [0, 0, 10, 10],
                  pageArea := some "page1 area1" }) :=
  rfl

/-- C9 (amended): accessing `Area.textblock` raises a `RuntimeError`-class
error exactly when some TextBlock id on the owning page is borne by more
than one Area; duplicate TextBlocks sharing the Area's id do not raise —
the first TextBlock whose id equals the Area's id is returned (in
particular, when exactly one matches, it is returned). -/
theorem C9_textblock_resolution (pageAreas : List AreaState) (tbIds : List String)
    (areaId : String) :
    (areaTextblock pageAreas tbIds areaId = .error PyErr.runtimeError ↔
      ∃ t ∈ tbIds, 1 < (pageAreas.filter (fun a => a.id == t)).length) ∧
    ((∀ t ∈ tbIds, (pageAreas.filter (fun a => a.id == t)).length ≤ 1) →
      areaId ∈ tbIds →
      ∃ tb, areaTextblock pageAreas tbIds areaId = .ok (some tb) ∧ tb.id = areaId) := by
  constructor
  · constructor
    · intro h
      unfold areaTextblock at h
      cases htbs : pageTextblocks pageAreas tbIds with
      | error e =>
        rw [htbs] at h
        have he : e = PyErr.runtimeError := by
          cases h
          rfl
        subst he
        exact ((pageTextblocks_spec pageAreas tbIds).1).mp htbs
      | ok tbs =>
        rw [htbs] at h
        cases h
    · intro h
      have herr := ((pageTextblocks_spec pageAreas tbIds).1).mpr h
      unfold areaTextblock
      rw [herr]
      rfl
  · intro hall hmem
    obtain ⟨tbs, htbs, hids⟩ := (pageTextblocks_spec pageAreas tbIds).2 hall
    have hsome : (tbs.find? (fun tb => tb.id == areaId)).isSome := by
      rw [List.find?_isSome]
      have hmem2 : areaId ∈ tbs.map (fun tb => tb.id) := hids ▸ hmem
      obtain ⟨tb, htbmem, htbid⟩ := List.mem_map.mp hmem2
      exact ⟨tb, htbmem, by simp [htbid]⟩
    obtain ⟨tb2, htb2⟩ := Option.isSome_iff_exists.mp hsome
    have htb2p := List.find?_some htb2
    refine ⟨tb2, ?_, by simpa using htb2p⟩
    unfold areaTextblock
    rw [htbs]
    show Except.ok (tbs.find? (fun tb => tb.id == areaId)) = .ok (some tb2)
    rw [htb2]

/-- C9 (witness for the amended theorem): one matching TextBlock on a
well-formed page is returned. -/
theorem C9_textblock_resolution_witness :
    ∃ tb, areaTextblock [areaTb1] ["tb1"] "tb1" = .ok (some tb) ∧ tb.id = "tb1" :=
  (C9_textblock_resolution [areaTb1] ["tb1"] "tb1").2 (by decide) (by decide)

/-- When every page opens and scans cleanly, the areas walk opens exactly
one page stream per listed page, in order, and succeeds. -/
theorem buildAreas_trace (arch : ArchiveModel)
    (lookupE : Except PyErr (List (String × String)))
    (pagePartsD : List (String × String)) :
    ∀ items : List (String × PageDiv),
      (∀ p ∈ items, exceptIsOk (openAndInitPage arch p.1) = true ∧
        exceptIsOk (scanAreasPage lookupE pagePartsD p.1 p.2) = true) →
      (buildAreas arch lookupE pagePartsD items).2 =
        items.map (fun p => OpenEvent.pageStream arch.docCode p.1) ∧
      exceptIsOk (buildAreas arch lookupE pagePartsD items).1 = true := by
  intro items
  induction items with
  | nil => intro _; exact ⟨rfl, rfl⟩
  | cons p rest ih =>
    intro h
    obtain ⟨pc, pd⟩ := p
    obtain ⟨hopen, hscan⟩ := h _ (List.mem_cons_self _ _)
    cases hop : openAndInitPage arch pc with
    | error e =>
      rw [hop] at hopen
      cases hopen
    | ok pst =>
      cases hsc : scanAreasPage lookupE pagePartsD pc pd with
      | error e =>
        rw [hsc] at hscan
        cases hscan
      | ok areas =>
        have ihh := ih (fun q hq => h q (List.mem_cons_of_mem _ hq))
        simp only [buildAreas]
        rw [hop, hsc]
        cases hres : (buildAreas arch lookupE pagePartsD rest).1 with
        | error e =>
          rw [hres] at ihh
          cases ihh.2
        | ok restAreas =>
          rw [hres] at ihh
          constructor
          · simp only [List.map_cons]
            rw [← ihh.1]
          · rfl

/-- C2 (amended): for a well-formed archive, constructing the document
opens the METS stream and then exactly one page (ALTO) stream per page
code, in order — page parsing is eager during `Document.__init__`, not
deferred to first page access. -/
theorem C2_opens_every_page (arch : ArchiveModel) (h : archWF arch = true) :
    (documentInitTrace arch).2 =
      OpenEvent.docStream arch.docCode ::
        (pageCodes arch.mets).map (fun pc => OpenEvent.pageStream arch.docCode pc) := by
  simp only [archWF, Bool.and_eq_true, List.all_eq_true] at h
  obtain ⟨⟨hdate, hplace⟩, hpages⟩ := h
  have hb := buildAreas_trace arch (articleIdLookup arch.mets.linkGroups)
    (pageParts arch.mets.linkGroups) (pagesMetadata arch.mets)
    (by
      intro p hp2
      have := hpages p hp2
      simp only [Bool.and_eq_true] at this
      exact this)
  have hmap : (pagesMetadata arch.mets).map
      (fun p => OpenEvent.pageStream arch.docCode p.1) =
      (pageCodes arch.mets).map (fun pc => OpenEvent.pageStream arch.docCode pc) := by
    simp [pageCodes, List.map_map]
  unfold documentInitTrace
  cases hd : parseYear arch.mets.dateText with
  | error e =>
    rw [hd] at hdate
    cases hdate
  | ok ys1 =>
    cases hp : parseYear arch.mets.placeText with
    | error e =>
      rw [hp] at hplace
      cases hplace
    | ok ys2 =>
      cases hres : (buildAreas arch (articleIdLookup arch.mets.linkGroups)
          (pageParts arch.mets.linkGroups) (pagesMetadata arch.mets)).1 with
      | error e =>
        rw [hres] at hb
        cases hb.2
      | ok areasByPage =>
        rw [hres] at hb
        cases hart : articlesIdsE ((areasByPage.map (fun p => p.2)).flatten) with
        | error e =>
          simp only [hd, hp, hres, hart]
          rw [hb.1, hmap]
        | ok artIds =>
          simp only [hd, hp, hres, hart]
          rw [hb.1, hmap]

/-- C2 (witness for the amended theorem): the well-formed two-page
archive. -/
theorem C2_opens_every_page_witness :
    (documentInitTrace arch2).2 =
      OpenEvent.docStream arch2.docCode ::
        (pageCodes arch2.mets).map (fun pc => OpenEvent.pageStream arch2.docCode pc) :=
  C2_opens_every_page arch2 (by decide)

/-- An area-like locator appends to the current article's entry. -/
theorem locatorsStep_area (c : Option String) (d : List (String × List String))
    (x : LocLink) (hx : isAreaId (cleanId x.1) = true) (cur : String)
    (lst : List String) (hc : c = some cur) (hget : dget? d cur = some lst) :
    locatorsStep (c, d) x = .ok (some cur, dset d cur (lst ++ [cleanId x.1])) := by
  subst hc
  simp only [locatorsStep, hx, Bool.not_true]
  rw [if_neg (by simp)]
  rw [hget]

/-- A non-area locator becomes the current article with an empty entry. -/
theorem locatorsStep_article (c : Option String) (d : List (String × List String))
    (x : LocLink) (hx : isAreaId (cleanId x.1) = false) :
    locatorsStep (c, d) x = .ok (some (cleanId x.1), dset d (cleanId x.1) []) := by
  simp only [locatorsStep, hx, Bool.not_false]
  rw [if_pos trivial]

/-- Processing a run of area-like locators appends their cleaned ids to
the current article's entry, which sits last in the dict. -/
theorem locators_tail (cur : String) (prior : List (String × List String))
    (hfr : cur ∉ dkeys prior) :
    ∀ t : List LocLink, (∀ x ∈ t, isAreaId (cleanId x.1) = true) →
      ∀ acc : List String,
        t.foldlM locatorsStep (some cur, prior ++ [(cur, acc)]) =
          .ok (some cur, prior ++ [(cur, acc ++ t.map (fun l => cleanId l.1))]) := by
  intro t
  induction t with
  | nil =>
    intro _ acc
    simp only [List.foldlM_nil, List.map_nil, List.append_nil]
    rfl
  | cons x t ih =>
    intro hall acc
    have hget : dget? (prior ++ [(cur, acc)]) cur = some acc := by
      rw [dget?_append_right _ hfr]
      simp [dget?, List.find?]
    rw [List.foldlM_cons]
    rw [locatorsStep_area _ _ _ (hall x (List.mem_cons_self _ _)) cur acc rfl hget]
    rw [dset_append_last _ _ hfr]
    show t.foldlM locatorsStep (some cur, prior ++ [(cur, acc ++ [cleanId x.1])]) = _
    rw [ih (fun y hy => hall y (List.mem_cons_of_mem _ hy)) (acc ++ [cleanId x.1])]
    simp

/-- Processing a well-formed group list from any prior dict appends one
`(cleaned head, cleaned tail)` entry per group. -/
theorem locators_groups :
    ∀ (gs : List (List LocLink)) (prior : List (String × List String))
      (cur0 : Option String),
      (∀ g ∈ gs, g ≠ [] ∧ isAreaId (cleanId (g.headI.1)) = false ∧
        ∀ x ∈ g.tail, isAreaId (cleanId x.1) = true) →
      (gs.map (fun g => cleanId (g.headI.1))).Nodup →
      (∀ g ∈ gs, cleanId (g.headI.1) ∉ dkeys prior) →
      ∃ curF,
        gs.foldlM (fun st (g : List LocLink) => g.foldlM locatorsStep st) (cur0, prior) =
          .ok (curF, prior ++ gs.map (fun g =>
            (cleanId (g.headI.1), g.tail.map (fun l => cleanId l.1)))) := by
  intro gs
  induction gs with
  | nil =>
    intro prior cur0 _ _ _
    refine ⟨cur0, ?_⟩
    simp only [List.foldlM_nil, List.map_nil, List.append_nil]
    rfl
  | cons g gs ih =>
    intro prior cur0 hper hnd hfr
    obtain ⟨hne, hhead, htail⟩ := hper g (List.mem_cons_self _ _)
    match g, hne with
    | h :: tl, _ =>
      simp only [List.headI_cons] at hhead
      simp only [List.tail_cons] at htail
      have hfrg : cleanId h.1 ∉ dkeys prior := by
        have := hfr (h :: tl) (List.mem_cons_self _ _)
        simpa [List.headI_cons] using this
      have hgrp : (h :: tl).foldlM locatorsStep (cur0, prior) =
          .ok (some (cleanId h.1),
            prior ++ [(cleanId h.1, tl.map (fun l => cleanId l.1))]) := by
        rw [List.foldlM_cons]
        rw [locatorsStep_article cur0 prior h hhead]
        rw [dset_fresh _ hfrg]
        show tl.foldlM locatorsStep
          (some (cleanId h.1), prior ++ [(cleanId h.1, [])]) = _
        rw [locators_tail (cleanId h.1) prior hfrg tl htail []]
        simp
      rw [List.foldlM_cons, hgrp]
      simp only [List.map_cons, List.nodup_cons, List.headI_cons] at hnd
      obtain ⟨curF, hrest⟩ := ih
        (prior ++ [(cleanId h.1, tl.map (fun l => cleanId l.1))]) (some (cleanId h.1))
        (fun g2 hg2 => hper g2 (List.mem_cons_of_mem _ hg2)) hnd.2
        (by
          intro g2 hg2
          rw [dkeys_append]
          simp only [List.mem_append, not_or]
          refine ⟨hfr g2 (List.mem_cons_of_mem _ hg2), ?_⟩
          simp only [dkeys, List.map_cons, List.map_nil, List.mem_cons,
            List.not_mem_nil, or_false]
          intro heq
          exact hnd.1 (heq ▸ List.mem_map_of_mem (fun g => cleanId (g.headI.1)) hg2))
      refine ⟨curF, ?_⟩
      show gs.foldlM (fun st (g : List LocLink) => g.foldlM locatorsStep st)
        (some (cleanId h.1),
          prior ++ [(cleanId h.1, tl.map (fun l => cleanId l.1))]) = _
      rw [hrest]
      simp [List.headI_cons, List.tail_cons, List.append_assoc]

/-- Processing a well-formed group list builds `_parts` as one
`(cleaned head, cleaned tail)` entry per group. -/
theorem articleParts_groups :
    ∀ (gs : List (List LocLink)) (prior : List (String × List String)),
      (∀ g ∈ gs, g ≠ []) →
      (gs.map (fun g => cleanId (g.headI.1))).Nodup →
      (∀ g ∈ gs, cleanId (g.headI.1) ∉ dkeys prior) →
      gs.foldlM articlePartsStep prior =
        .ok (prior ++ gs.map (fun g =>
          (cleanId (g.headI.1), g.tail.map (fun l => cleanId l.1)))) := by
  intro gs
  induction gs with
  | nil =>
    intro prior _ _ _
    simp only [List.foldlM_nil, List.map_nil, List.append_nil]
    rfl
  | cons g gs ih =>
    intro prior hper hnd hfr
    have hne := hper g (List.mem_cons_self _ _)
    match g, hne with
    | h :: tl, _ =>
      have hfrg : cleanId h.1 ∉ dkeys prior := by
        have := hfr (h :: tl) (List.mem_cons_self _ _)
        simpa [List.headI_cons] using this
      have hstep : articlePartsStep prior (h :: tl) =
          .ok (prior ++ [(cleanId h.1, tl.map (fun l => cleanId l.1))]) := by
        simp only [articlePartsStep, List.map_cons]
        rw [dset_fresh _ hfrg]
      rw [List.foldlM_cons, hstep]
      show gs.foldlM articlePartsStep
        (prior ++ [(cleanId h.1, tl.map (fun l => cleanId l.1))]) = _
      simp only [List.map_cons, List.nodup_cons, List.headI_cons] at hnd
      rw [ih (prior ++ [(cleanId h.1, tl.map (fun l => cleanId l.1))])
        (fun g2 hg2 => hper g2 (List.mem_cons_of_mem _ hg2)) hnd.2
        (by
          intro g2 hg2
          rw [dkeys_append]
          simp only [List.mem_append, not_or]
          refine ⟨hfr g2 (List.mem_cons_of_mem _ hg2), ?_⟩
          simp only [dkeys, List.map_cons, List.map_nil, List.mem_cons,
            List.not_mem_nil, or_false]
          intro heq
          exact hnd.1 (heq ▸ List.mem_map_of_mem (fun g => cleanId (g.headI.1)) hg2))]
      simp [List.headI_cons, List.tail_cons, List.append_assoc]

/-- Keys of an inverted entry block are the area ids themselves. -/
theorem dkeys_map_pair (art : String) (l : List String) :
    dkeys (l.map (fun pa => (pa, art))) = l := by
  induction l with
  | nil => rfl
  | cons a l ih =>
    simp only [List.map_cons, dkeys] at ih ⊢
    simp only [List.map_cons, List.cons.injEq]
    exact ⟨trivial, ih⟩

/-- Assigning a fixed article id under pairwise-distinct fresh area ids
appends the inverted entries. -/
theorem foldl_dset_const (art : String) :
    ∀ (l : List String) (acc : List (String × String)),
      (∀ pa ∈ l, pa ∉ dkeys acc) → l.Nodup →
      l.foldl (fun acc2 pa => dset acc2 pa art) acc =
        acc ++ l.map (fun pa => (pa, art)) := by
  intro l
  induction l with
  | nil =>
    intro acc _ _
    simp
  | cons pa l ih =>
    intro acc hfresh hnd
    simp only [List.nodup_cons] at hnd
    simp only [List.foldl_cons]
    rw [dset_fresh art (hfresh pa (List.mem_cons_self _ _))]
    rw [ih (acc ++ [(pa, art)]) ?_ hnd.2]
    · simp
    · intro pa2 hpa2
      rw [dkeys_append]
      simp only [List.mem_append, not_or]
      refine ⟨hfresh pa2 (List.mem_cons_of_mem _ hpa2), ?_⟩
      simp only [dkeys, List.map_cons, List.map_nil, List.mem_cons, List.not_mem_nil,
        or_false]
      intro heq
      exact hnd.1 (heq ▸ hpa2)

/-- Inverting a parts dict with globally distinct area ids concatenates
the per-article inverted entries. -/
theorem foldl_lookupInsertGroup :
    ∀ (L : List (String × List String)) (acc : List (String × String)),
      (∀ pa ∈ (L.map (fun p => p.2)).flatten, pa ∉ dkeys acc) →
      ((L.map (fun p => p.2)).flatten).Nodup →
      L.foldl lookupInsertGroup acc =
        acc ++ (L.map (fun p => p.2.map (fun pa => (pa, p.1)))).flatten := by
  intro L
  induction L with
  | nil =>
    intro acc _ _
    simp
  | cons p L ih =>
    intro acc hfresh hnd
    simp only [List.map_cons, List.flatten_cons] at hfresh hnd
    rw [List.nodup_append] at hnd
    simp only [List.foldl_cons]
    have hstep : lookupInsertGroup acc p = acc ++ p.2.map (fun pa => (pa, p.1)) := by
      unfold lookupInsertGroup
      exact foldl_dset_const p.1 p.2 acc
        (fun pa hpa => hfresh pa (List.mem_append_left _ hpa)) hnd.1
    rw [hstep]
    rw [ih (acc ++ p.2.map (fun pa => (pa, p.1))) ?_ hnd.2.1]
    · simp [List.append_assoc]
    · intro pa2 hpa2
      rw [dkeys_append]
      simp only [List.mem_append, not_or]
      refine ⟨hfresh pa2 (List.mem_append_right _ hpa2), ?_⟩
      have hdk : dkeys (p.2.map (fun pa => (pa, p.1))) = p.2 := dkeys_map_pair p.1 p.2
      rw [hdk]
      intro hmem
      exact hnd.2.2 hmem hpa2

/-- C1: for a document whose structural links are well-formed in the
specification's sense (each link group is an article id followed by
area ids, with globally distinct area ids and distinct article ids —
"an area id appears under exactly one article id, or the document is
malformed"), `locators` and `article_id_lookup` both compute and are
exact inverses: `r ∈ locators[a]` iff `article_id_lookup[r] = a`. -/
theorem C1_locators_lookup_inverse (groups : List (List LocLink))
    (hwf : linksWF groups = true) :
    ∃ L K, locators groups = .ok L ∧ articleIdLookup groups = .ok K ∧
      ∀ a r : String, (∃ l, dget? L a = some l ∧ r ∈ l) ↔ dget? K r = some a := by
  simp only [linksWF, Bool.and_eq_true, List.all_eq_true, decide_eq_true_eq] at hwf
  obtain ⟨⟨hper0, hheads⟩, hareas⟩ := hwf
  have hper : ∀ g ∈ groups, g ≠ [] ∧ isAreaId (cleanId (g.headI.1)) = false ∧
      ∀ x ∈ g.tail, isAreaId (cleanId x.1) = true := by
    intro g hg
    have hg2 := hper0 g hg
    match g, hg2 with
    | h :: t, hg2 =>
      simp only [Bool.and_eq_true, Bool.not_eq_true', List.all_eq_true] at hg2
      refine ⟨by simp, ?_, ?_⟩
      · simpa [List.headI_cons] using hg2.1
      · intro x hx
        simp only [List.tail_cons] at hx
        exact hg2.2 x hx
  have hL : locators groups = .ok (groups.map (fun g =>
      (cleanId (g.headI.1), g.tail.map (fun l => cleanId l.1)))) := by
    obtain ⟨curF, h⟩ := locators_groups groups [] none hper hheads
      (by intro g _; simp [dkeys])
    simp only [locators]
    rw [h]
    rfl
  have hParts : articleParts groups = .ok (groups.map (fun g =>
      (cleanId (g.headI.1), g.tail.map (fun l => cleanId l.1)))) := by
    have h := articleParts_groups groups [] (fun g hg => (hper g hg).1) hheads
      (by intro g _; simp [dkeys])
    simpa [articleParts] using h
  have hsnd : (groups.map (fun g =>
      (cleanId (g.headI.1), g.tail.map (fun l => cleanId l.1)))).map (fun p => p.2) =
      groups.map (fun g => g.tail.map (fun l => cleanId l.1)) := by
    rw [List.map_map]
    exact List.map_congr_left (fun a _ => rfl)
  have hfst : dkeys (groups.map (fun g =>
      (cleanId (g.headI.1), g.tail.map (fun l => cleanId l.1)))) =
      groups.map (fun g => cleanId (g.headI.1)) := by
    simp only [dkeys]
    rw [List.map_map]
    exact List.map_congr_left (fun a _ => rfl)
  have hareas2 : (((groups.map (fun g =>
      (cleanId (g.headI.1), g.tail.map (fun l => cleanId l.1)))).map
        (fun p => p.2)).flatten).Nodup := by
    rw [hsnd]
    exact hareas
  have hK : articleIdLookup groups = .ok
      (((groups.map (fun g =>
        (cleanId (g.headI.1), g.tail.map (fun l => cleanId l.1)))).map
          (fun p => p.2.map (fun pa => (pa, p.1)))).flatten) := by
    unfold articleIdLookup
    rw [hParts]
    show Except.ok ((groups.map (fun g =>
      (cleanId (g.headI.1), g.tail.map (fun l => cleanId l.1)))).foldl
        lookupInsertGroup []) = _
    rw [foldl_lookupInsertGroup _ [] (by intro pa _; simp [dkeys]) hareas2]
    rfl
  refine ⟨_, _, hL, hK, ?_⟩
  intro a r
  have hndL : (dkeys (groups.map (fun g =>
      (cleanId (g.headI.1), g.tail.map (fun l => cleanId l.1))))).Nodup := by
    rw [hfst]
    exact hheads
  have hndK : (dkeys (((groups.map (fun g =>
      (cleanId (g.headI.1), g.tail.map (fun l => cleanId l.1)))).map
        (fun p => p.2.map (fun pa => (pa, p.1)))).flatten)).Nodup := by
    have heq : dkeys (((groups.map (fun g =>
        (cleanId (g.headI.1), g.tail.map (fun l => cleanId l.1)))).map
          (fun p => p.2.map (fun pa => (pa, p.1)))).flatten) =
        ((groups.map (fun g =>
          (cleanId (g.headI.1), g.tail.map (fun l => cleanId l.1)))).map
            (fun p => p.2)).flatten := by
      simp only [dkeys]
      rw [List.map_flatten, List.map_map]
      congr 1
      refine List.map_congr_left ?_
      intro p _
      exact dkeys_map_pair p.1 p.2
    rw [heq]
    exact hareas2
  constructor
  · rintro ⟨l, hget, hr⟩
    have hmemL := (dget?_eq_some_iff_mem hndL).mp hget
    obtain ⟨g, hg, hcg⟩ := List.mem_map.mp hmemL
    rw [dget?_eq_some_iff_mem hndK]
    rw [List.mem_flatten]
    refine ⟨(g.tail.map (fun x => cleanId x.1)).map
      (fun pa => (pa, cleanId (g.headI.1))), ?_, ?_⟩
    · rw [List.mem_map]
      refine ⟨(cleanId (g.headI.1), g.tail.map (fun x => cleanId x.1)),
        List.mem_map_of_mem _ hg, rfl⟩
    · have ha : cleanId (g.headI.1) = a := congrArg Prod.fst hcg
      have hl : g.tail.map (fun x => cleanId x.1) = l := congrArg Prod.snd hcg
      rw [ha, hl]
      exact List.mem_map_of_mem (fun pa => (pa, a)) hr
  · intro hget
    have hmemK := (dget?_eq_some_iff_mem hndK).mp hget
    rw [List.mem_flatten] at hmemK
    obtain ⟨chunk, hchunk, hra⟩ := hmemK
    obtain ⟨p, hpL, hpc⟩ := List.mem_map.mp hchunk
    subst hpc
    obtain ⟨pa, hpa, hpaeq⟩ := List.mem_map.mp hra
    have hpar : pa = r := congrArg Prod.fst hpaeq
    have hp1a : p.1 = a := congrArg Prod.snd hpaeq
    refine ⟨p.2, ?_, hpar ▸ hpa⟩
    rw [dget?_eq_some_iff_mem hndL]
    have : (p.1, p.2) = p := rfl
    rw [← hp1a, this]
    exact hpL

/-- Witness: the inverse relationship is realized on the concrete
well-formed link groups of `arch2`. -/
theorem C1_locators_lookup_inverse_witness :
    ∃ L K, locators linkGroups2 = .ok L ∧ articleIdLookup linkGroups2 = .ok K ∧
      ∀ a r : String, (∃ l, dget? L a = some l ∧ r ∈ l) ↔ dget? K r = some a :=
  C1_locators_lookup_inverse linkGroups2 (by decide)

/-- Swapping the arguments of `cmpNat` swaps the ordering. -/
theorem cmpNat_swap (a b : Nat) : cmpNat a b = (cmpNat b a).swap := by
  unfold cmpNat
  split_ifs <;> simp_all [Ordering.swap] <;> omega

/-- Characterisation of `cmpNat` returning `.lt`. -/
theorem cmpNat_lt_iff (a b : Nat) : cmpNat a b = .lt ↔ a < b := by
  unfold cmpNat
  split_ifs <;> simp_all

/-- Characterisation of `cmpNat` returning `.eq`. -/
theorem cmpNat_eq_iff (a b : Nat) : cmpNat a b = .eq ↔ a = b := by
  unfold cmpNat
  split_ifs <;> simp_all <;> omega

/-- Transitivity of strict `cmpNat`. -/
theorem cmpNat_lt_trans (a b c : Nat) (h1 : cmpNat a b = .lt)
    (h2 : cmpNat b c = .lt) : cmpNat a c = .lt := by
  rw [cmpNat_lt_iff] at *
  omega

/-- Swapping the arguments of `cmpInt` swaps the ordering. -/
theorem cmpInt_swap (a b : Int) : cmpInt a b = (cmpInt b a).swap := by
  unfold cmpInt
  split_ifs <;> simp_all [Ordering.swap] <;> omega

/-- Characterisation of `cmpInt` returning `.lt`. -/
theorem cmpInt_lt_iff (a b : Int) : cmpInt a b = .lt ↔ a < b := by
  unfold cmpInt
  split_ifs <;> simp_all

/-- Characterisation of `cmpInt` returning `.eq`. -/
theorem cmpInt_eq_iff (a b : Int) : cmpInt a b = .eq ↔ a = b := by
  unfold cmpInt
  split_ifs <;> simp_all <;> omega

/-- Transitivity of strict `cmpInt`. -/
theorem cmpInt_lt_trans (a b c : Int) (h1 : cmpInt a b = .lt)
    (h2 : cmpInt b c = .lt) : cmpInt a c = .lt := by
  rw [cmpInt_lt_iff] at *
  omega

/-- Swapping the arguments of `cmpChar` swaps the ordering. -/
theorem cmpChar_swap (a b : Char) : cmpChar a b = (cmpChar b a).swap :=
  cmpNat_swap a.toNat b.toNat

/-- Characterisation of `cmpChar` returning `.eq`. -/
theorem cmpChar_eq_iff (a b : Char) : cmpChar a b = .eq ↔ a = b := by
  unfold cmpChar
  rw [cmpNat_eq_iff]
  exact ⟨fun h => Char.ext (UInt32.ext h), fun h => congrArg Char.toNat h⟩

/-- Transitivity of strict `cmpChar`. -/
theorem cmpChar_lt_trans (a b c : Char) (h1 : cmpChar a b = .lt)
    (h2 : cmpChar b c = .lt) : cmpChar a c = .lt :=
  cmpNat_lt_trans _ _ _ h1 h2

/-- Swapping both arguments of a lexicographic list comparison swaps the
ordering, provided the element comparator has that property. -/
theorem cmpList_swap {α : Type} (c : α → α → Ordering)
    (hsw : ∀ a b, c a b = (c b a).swap) (l1 l2 : List α) :
    cmpList c l1 l2 = (cmpList c l2 l1).swap := by
  induction l1 generalizing l2 with
  | nil => cases l2 <;> rfl
  | cons a as ih =>
    cases l2 with
    | nil => rfl
    | cons b bs =>
      simp only [cmpList]
      rw [hsw a b, ih bs]
      cases c b a <;> cases cmpList c bs as <;> rfl

/-- Lexicographic list comparison returns `.eq` exactly on equal lists,
provided the element comparator does. -/
theorem cmpList_eq_iff {α : Type} (c : α → α → Ordering)
    (heq : ∀ a b, c a b = .eq ↔ a = b) (l1 l2 : List α) :
    cmpList c l1 l2 = .eq ↔ l1 = l2 := by
  induction l1 generalizing l2 with
  | nil => cases l2 <;> simp [cmpList]
  | cons a as ih =>
    cases l2 with
    | nil => simp [cmpList]
    | cons b bs =>
      simp only [cmpList]
      constructor
      · intro h
        cases hc : c a b <;> rw [hc] at h <;> simp [Ordering.then] at h
        rw [(heq a b).mp hc, (ih bs).mp h]
      · intro h
        injection h with h1 h2
        subst h1
        subst h2
        rw [(heq a a).mpr rfl]
        simpa [Ordering.then] using (ih as).mpr rfl

/-- Transitivity of strict lexicographic list comparison. -/
theorem cmpList_lt_trans {α : Type} (c : α → α → Ordering)
    (heq : ∀ a b, c a b = .eq ↔ a = b)
    (hlt : ∀ a b d, c a b = .lt → c b d = .lt → c a d = .lt)
    (l1 l2 l3 : List α) (h1 : cmpList c l1 l2 = .lt)
    (h2 : cmpList c l2 l3 = .lt) : cmpList c l1 l3 = .lt := by
  induction l1 generalizing l2 l3 with
  | nil =>
    cases l2 with
    | nil => simp [cmpList] at h1
    | cons b bs =>
      cases l3 with
      | nil => simp [cmpList] at h2
      | cons d ds => simp [cmpList]
  | cons a as ih =>
    cases l2 with
    | nil => simp [cmpList] at h1
    | cons b bs =>
      cases l3 with
      | nil => simp [cmpList] at h2
      | cons d ds =>
        simp only [cmpList] at h1 h2 ⊢
        cases hab : c a b <;> rw [hab] at h1 <;> simp [Ordering.then] at h1
        · cases hbd : c b d <;> rw [hbd] at h2 <;> simp [Ordering.then] at h2
          · rw [hlt a b d hab hbd]
            rfl
          · have he : b = d := (heq b d).mp hbd
            subst he
            rw [hab]
            rfl
        · have he : a = b := (heq a b).mp hab
          subst he
          cases had : c a d <;> rw [had] at h2 <;> simp [Ordering.then] at h2
          · rfl
          · simpa [Ordering.then] using ih bs ds h1 h2

/-- Swapping the arguments of `cmpStr` swaps the ordering. -/
theorem cmpStr_swap (a b : String) : cmpStr a b = (cmpStr b a).swap :=
  cmpList_swap cmpChar cmpChar_swap a.data b.data

/-- Characterisation of `cmpStr` returning `.eq`. -/
theorem cmpStr_eq_iff (a b : String) : cmpStr a b = .eq ↔ a = b := by
  unfold cmpStr
  rw [cmpList_eq_iff cmpChar cmpChar_eq_iff]
  exact ⟨fun h => String.ext h, fun h => congrArg String.data h⟩

/-- Transitivity of strict `cmpStr`. -/
theorem cmpStr_lt_trans (a b c : String) (h1 : cmpStr a b = .lt)
    (h2 : cmpStr b c = .lt) : cmpStr a c = .lt :=
  cmpList_lt_trans cmpChar cmpChar_eq_iff cmpChar_lt_trans _ _ _ h1 h2

/-- Swap property of a comparison built from a projected comparator
followed by a tiebreak. -/
theorem projThen_swap {α β : Type} (f : α → β) (cp : β → β → Ordering)
    (d : α → α → Ordering) (hpsw : ∀ x y, cp x y = (cp y x).swap)
    (hdsw : ∀ a b, d a b = (d b a).swap) (a b : α) :
    (cp (f a) (f b)).then (d a b) = ((cp (f b) (f a)).then (d b a)).swap := by
  rw [hpsw, hdsw]
  cases cp (f b) (f a) <;> cases d b a <;> rfl

/-- Transitivity of the strict part of a comparison built from a
projected comparator followed by a tiebreak. -/
theorem projThen_lt_trans {α β : Type} (f : α → β) (cp : β → β → Ordering)
    (d : α → α → Ordering)
    (hplt : ∀ x y z, cp x y = .lt → cp y z = .lt → cp x z = .lt)
    (hpeq : ∀ x y, cp x y = .eq ↔ x = y)
    (hdlt : ∀ a b c, d a b = .lt → d b c = .lt → d a c = .lt)
    (a b c : α) (h1 : (cp (f a) (f b)).then (d a b) = .lt)
    (h2 : (cp (f b) (f c)).then (d b c) = .lt) :
    (cp (f a) (f c)).then (d a c) = .lt := by
  cases hab : cp (f a) (f b) <;> rw [hab] at h1 <;> simp [Ordering.then] at h1
  · cases hbc : cp (f b) (f c) <;> rw [hbc] at h2 <;> simp [Ordering.then] at h2
    · rw [hplt _ _ _ hab hbc]
      rfl
    · have he : f b = f c := (hpeq _ _).mp hbc
      rw [← he, hab]
      rfl
  · have he : f a = f b := (hpeq _ _).mp hab
    cases hbc : cp (f b) (f c) <;> rw [hbc] at h2 <;> simp [Ordering.then] at h2
    · rw [he, hbc]
      rfl
    · have he2 : f b = f c := (hpeq _ _).mp hbc
      rw [he, he2, (hpeq (f c) (f c)).mpr rfl]
      simpa [Ordering.then] using hdlt a b c h1 h2

/-- Congruence of a projected-then-tiebreak comparison in either
argument, given that one comparison returned `.eq`. -/
theorem projThen_congr {α β : Type} (f : α → β) (cp : β → β → Ordering)
    (d : α → α → Ordering) (hpeq : ∀ x y, cp x y = .eq ↔ x = y)
    (hdcg : ∀ a b, d a b = .eq → ∀ x, d a x = d b x ∧ d x a = d x b)
    (a b : α) (h : (cp (f a) (f b)).then (d a b) = .eq) (x : α) :
    ((cp (f a) (f x)).then (d a x) = (cp (f b) (f x)).then (d b x)) ∧
      ((cp (f x) (f a)).then (d x a) = (cp (f x) (f b)).then (d x b)) := by
  have hcp : cp (f a) (f b) = .eq ∧ d a b = .eq := by
    cases hc : cp (f a) (f b) <;> rw [hc] at h <;> simp [Ordering.then] at h
    exact ⟨rfl, h⟩
  have he : f a = f b := (hpeq _ _).mp hcp.1
  obtain ⟨hd1, hd2⟩ := hdcg a b hcp.2 x
  rw [he, hd1, hd2]
  exact ⟨rfl, rfl⟩

/-- Swap property of the score comparison. -/
theorem cmpScore_swap (a b : MatchResult) : cmpScore a b = (cmpScore b a).swap :=
  cmpNat_swap a.score b.score

/-- Transitivity of the strict score comparison. -/
theorem cmpScore_lt_trans (a b c : MatchResult) (h1 : cmpScore a b = .lt)
    (h2 : cmpScore b c = .lt) : cmpScore a c = .lt :=
  cmpNat_lt_trans _ _ _ h1 h2

/-- Congruence of the score comparison on score-equal results. -/
theorem cmpScore_congr (a b : MatchResult) (h : cmpScore a b = .eq) (x : MatchResult) :
    cmpScore a x = cmpScore b x ∧ cmpScore x a = cmpScore x b := by
  have he : a.score = b.score := (cmpNat_eq_iff _ _).mp h
  unfold cmpScore
  rw [he]
  exact ⟨rfl, rfl⟩

/-- Swap property of the token-then-score comparison. -/
theorem cmpTok_swap (a b : MatchResult) : cmpTok a b = (cmpTok b a).swap :=
  projThen_swap (fun r : MatchResult => r.token) cmpStr cmpScore cmpStr_swap cmpScore_swap a b

/-- Transitivity of the strict token-then-score comparison. -/
theorem cmpTok_lt_trans (a b c : MatchResult) (h1 : cmpTok a b = .lt)
    (h2 : cmpTok b c = .lt) : cmpTok a c = .lt :=
  projThen_lt_trans (fun r : MatchResult => r.token) cmpStr cmpScore cmpStr_lt_trans
    cmpStr_eq_iff cmpScore_lt_trans a b c h1 h2

/-- Congruence of the token-then-score comparison. -/
theorem cmpTok_congr (a b : MatchResult) (h : cmpTok a b = .eq) (x : MatchResult) :
    cmpTok a x = cmpTok b x ∧ cmpTok x a = cmpTok x b :=
  projThen_congr (fun r : MatchResult => r.token) cmpStr cmpScore cmpStr_eq_iff
    cmpScore_congr a b h x

/-- Swap property of the comparison from level height down. -/
theorem cmpH_swap (a b : MatchResult) : cmpH a b = (cmpH b a).swap :=
  projThen_swap (fun r : MatchResult => r.h) cmpInt cmpTok cmpInt_swap cmpTok_swap a b

/-- Transitivity of the strict comparison from level height down. -/
theorem cmpH_lt_trans (a b c : MatchResult) (h1 : cmpH a b = .lt)
    (h2 : cmpH b c = .lt) : cmpH a c = .lt :=
  projThen_lt_trans (fun r : MatchResult => r.h) cmpInt cmpTok cmpInt_lt_trans
    cmpInt_eq_iff cmpTok_lt_trans a b c h1 h2

/-- Congruence of the comparison from level height down. -/
theorem cmpH_congr (a b : MatchResult) (h : cmpH a b = .eq) (x : MatchResult) :
    cmpH a x = cmpH b x ∧ cmpH x a = cmpH x b :=
  projThen_congr (fun r : MatchResult => r.h) cmpInt cmpTok cmpInt_eq_iff cmpTok_congr a b h x

/-- Swap property of the comparison from level width down. -/
theorem cmpW_swap (a b : MatchResult) : cmpW a b = (cmpW b a).swap :=
  projThen_swap (fun r : MatchResult => r.w) cmpInt cmpH cmpInt_swap cmpH_swap a b

/-- Transitivity of the strict comparison from level width down. -/
theorem cmpW_lt_trans (a b c : MatchResult) (h1 : cmpW a b = .lt)
    (h2 : cmpW b c = .lt) : cmpW a c = .lt :=
  projThen_lt_trans (fun r : MatchResult => r.w) cmpInt cmpH cmpInt_lt_trans
    cmpInt_eq_iff cmpH_lt_trans a b c h1 h2

/-- Congruence of the comparison from level width down. -/
theorem cmpW_congr (a b : MatchResult) (h : cmpW a b = .eq) (x : MatchResult) :
    cmpW a x = cmpW b x ∧ cmpW x a = cmpW x b :=
  projThen_congr (fun r : MatchResult => r.w) cmpInt cmpH cmpInt_eq_iff cmpH_congr a b h x

/-- Swap property of the comparison from level y down. -/
theorem cmpY_swap (a b : MatchResult) : cmpY a b = (cmpY b a).swap :=
  projThen_swap (fun r : MatchResult => r.y) cmpInt cmpW cmpInt_swap cmpW_swap a b

/-- Transitivity of the strict comparison from level y down. -/
theorem cmpY_lt_trans (a b c : MatchResult) (h1 : cmpY a b = .lt)
    (h2 : cmpY b c = .lt) : cmpY a c = .lt :=
  projThen_lt_trans (fun r : MatchResult => r.y) cmpInt cmpW cmpInt_lt_trans
    cmpInt_eq_iff cmpW_lt_trans a b c h1 h2

/-- Congruence of the comparison from level y down. -/
theorem cmpY_congr (a b : MatchResult) (h : cmpY a b = .eq) (x : MatchResult) :
    cmpY a x = cmpY b x ∧ cmpY x a = cmpY x b :=
  projThen_congr (fun r : MatchResult => r.y) cmpInt cmpW cmpInt_eq_iff cmpW_congr a b h x

/-- Swap property of the comparison from level x down. -/
theorem cmpX_swap (a b : MatchResult) : cmpX a b = (cmpX b a).swap :=
  projThen_swap (fun r : MatchResult => r.x) cmpInt cmpY cmpInt_swap cmpY_swap a b

/-- Transitivity of the strict comparison from level x down. -/
theorem cmpX_lt_trans (a b c : MatchResult) (h1 : cmpX a b = .lt)
    (h2 : cmpX b c = .lt) : cmpX a c = .lt :=
  projThen_lt_trans (fun r : MatchResult => r.x) cmpInt cmpY cmpInt_lt_trans
    cmpInt_eq_iff cmpY_lt_trans a b c h1 h2

/-- Congruence of the comparison from level x down. -/
theorem cmpX_congr (a b : MatchResult) (h : cmpX a b = .eq) (x : MatchResult) :
    cmpX a x = cmpX b x ∧ cmpX x a = cmpX x b :=
  projThen_congr (fun r : MatchResult => r.x) cmpInt cmpY cmpInt_eq_iff cmpY_congr a b h x

/-- Swap property of the comparison from the token-index level down. -/
theorem cmpIx_swap (a b : MatchResult) : cmpIx a b = (cmpIx b a).swap :=
  projThen_swap (fun r : MatchResult => r.ix) cmpNat cmpX cmpNat_swap cmpX_swap a b

/-- Transitivity of the strict comparison from the token-index level
down. -/
theorem cmpIx_lt_trans (a b c : MatchResult) (h1 : cmpIx a b = .lt)
    (h2 : cmpIx b c = .lt) : cmpIx a c = .lt :=
  projThen_lt_trans (fun r : MatchResult => r.ix) cmpNat cmpX cmpNat_lt_trans
    cmpNat_eq_iff cmpX_lt_trans a b c h1 h2

/-- Congruence of the comparison from the token-index level down. -/
theorem cmpIx_congr (a b : MatchResult) (h : cmpIx a b = .eq) (x : MatchResult) :
    cmpIx a x = cmpIx b x ∧ cmpIx x a = cmpIx x b :=
  projThen_congr (fun r : MatchResult => r.ix) cmpNat cmpX cmpNat_eq_iff cmpX_congr a b h x

/-- Swap property of the full tuple comparison. -/
theorem resultCmp_swap (a b : MatchResult) : resultCmp a b = (resultCmp b a).swap :=
  projThen_swap (fun r : MatchResult => r.nav) (cmpList cmpStr) cmpIx
    (cmpList_swap cmpStr cmpStr_swap) cmpIx_swap a b

/-- Transitivity of the strict full tuple comparison. -/
theorem resultCmp_lt_trans (a b c : MatchResult) (h1 : resultCmp a b = .lt)
    (h2 : resultCmp b c = .lt) : resultCmp a c = .lt :=
  projThen_lt_trans (fun r : MatchResult => r.nav) (cmpList cmpStr) cmpIx
    (cmpList_lt_trans cmpStr cmpStr_eq_iff cmpStr_lt_trans)
    (cmpList_eq_iff cmpStr cmpStr_eq_iff) cmpIx_lt_trans a b c h1 h2

/-- Congruence of the full tuple comparison. -/
theorem resultCmp_congr (a b : MatchResult) (h : resultCmp a b = .eq)
    (x : MatchResult) :
    resultCmp a x = resultCmp b x ∧ resultCmp x a = resultCmp x b :=
  projThen_congr (fun r : MatchResult => r.nav) (cmpList cmpStr) cmpIx
    (cmpList_eq_iff cmpStr cmpStr_eq_iff) cmpIx_congr a b h x

/-- Totality of the tuple order used by regex-mode sorting. -/
theorem resultLe_total (a b : MatchResult) :
    resultLe a b = true ∨ resultLe b a = true := by
  by_cases h : resultCmp a b = .gt
  · right
    have hs := resultCmp_swap b a
    rw [h] at hs
    simp only [resultLe, hs]
    rfl
  · left
    simp only [resultLe]
    cases hab : resultCmp a b
    · rfl
    · rfl
    · exact absurd hab h

/-- Transitivity of the tuple order used by regex-mode sorting. -/
theorem resultLe_trans (a b c : MatchResult) (h1 : resultLe a b = true)
    (h2 : resultLe b c = true) : resultLe a c = true := by
  unfold resultLe at h1 h2 ⊢
  cases hab : resultCmp a b with
  | lt =>
    cases hbc : resultCmp b c with
    | lt =>
      rw [resultCmp_lt_trans a b c hab hbc]
      rfl
    | eq =>
      have hc := (resultCmp_congr b c hbc a).2
      rw [← hc, hab]
      rfl
    | gt =>
      rw [hbc] at h2
      exact absurd h2 (by decide)
  | eq =>
    have hc := (resultCmp_congr a b hab c).1
    rw [hc]
    exact h2
  | gt =>
    rw [hab] at h1
    exact absurd h1 (by decide)

/-- Totality of the descending score order used by fuzzy-mode sorting. -/
theorem scoreSortLe_total (a b : MatchResult) :
    scoreSortLe true a b = true ∨ scoreSortLe true b a = true := by
  simp only [scoreSortLe, if_true, decide_eq_true_eq]
  omega

/-- Transitivity of the descending score order used by fuzzy-mode
sorting. -/
theorem scoreSortLe_trans (a b c : MatchResult) (h1 : scoreSortLe true a b = true)
    (h2 : scoreSortLe true b c = true) : scoreSortLe true a c = true := by
  simp only [scoreSortLe, if_true, decide_eq_true_eq] at h1 h2 ⊢
  omega

/-- Reduction of `tbMatch` in regex mode with `all_results=False` and
`sort_results=True`: the scored results are filtered to nonzero score
and sorted by the full tuple order. -/
theorem tbMatch_regex_ok (nav0 : List String) (tbId : String) (toks : List Token)
    (nfn nnfn lfn sfn : String → String) (searchFn : String → String → Bool)
    (fns : FuzzFns) (token : List String)
    (normalise includeNumbers lemmatise stem : Bool) (fuzzMethod : String)
    (minRatio : Rat) (sortReverse addTextblock : Bool) :
    tbMatch nav0 tbId toks nfn nnfn lfn sfn searchFn fns token normalise
        includeNumbers lemmatise stem fuzzMethod minRatio false true sortReverse
        addTextblock true =
      .ok (pySort resultLe
        ((buildMatches (if addTextblock then nav0 ++ [tbId] else nav0)
          (processTokens nfn nnfn lfn sfn toks normalise includeNumbers
            lemmatise stem).enum
          (fun mw tok => if searchFn mw tok then 100 else 0)
          token.eraseDups).filter (fun r => r.score != 0))) := rfl

/-- Reduction of `tbMatch` in fuzzy mode with `all_results=False` and
`sort_results=True`, when the scorer lookup succeeds: results are
filtered to `min_ratio ≤ score` and sorted by score. -/
theorem tbMatch_fuzzy_ok (nav0 : List String) (tbId : String) (toks : List Token)
    (nfn nnfn lfn sfn : String → String) (searchFn : String → String → Bool)
    (fns : FuzzFns) (token : List String)
    (normalise includeNumbers lemmatise stem : Bool) (fuzzMethod : String)
    (minRatio : Rat) (sortReverse addTextblock : Bool)
    (fuzzFn : String → String → Nat)
    (hf : pickFuzz fns fuzzMethod = .ok fuzzFn) :
    tbMatch nav0 tbId toks nfn nnfn lfn sfn searchFn fns token normalise
        includeNumbers lemmatise stem fuzzMethod minRatio false true sortReverse
        addTextblock false =
      .ok (pySort (scoreSortLe sortReverse)
        ((buildMatches (if addTextblock then nav0 ++ [tbId] else nav0)
          (processTokens nfn nnfn lfn sfn toks normalise includeNumbers
            lemmatise stem).enum
          (fun mw tok => fuzzFn tok mw)
          token.eraseDups).filter (fun r => minRatio ≤ (r.score : Rat)))) := by
  simp only [tbMatch]
  rw [hf]
  rfl

/-- Reduction of `tbMatch` in fuzzy mode when the scorer lookup fails:
the error propagates. -/
theorem tbMatch_fuzzy_err (nav0 : List String) (tbId : String) (toks : List Token)
    (nfn nnfn lfn sfn : String → String) (searchFn : String → String → Bool)
    (fns : FuzzFns) (token : List String)
    (normalise includeNumbers lemmatise stem : Bool) (fuzzMethod : String)
    (minRatio : Rat) (allResults sortResults sortReverse addTextblock : Bool)
    (e : PyErr) (hf : pickFuzz fns fuzzMethod = .error e) :
    tbMatch nav0 tbId toks nfn nnfn lfn sfn searchFn fns token normalise
        includeNumbers lemmatise stem fuzzMethod minRatio allResults sortResults
        sortReverse addTextblock false = .error e := by
  simp only [tbMatch]
  rw [hf]
  rfl

/-- C6: for every text block and valid token argument, `match` with
`all_results=False` keeps only results over the threshold — score `> 0`
in regex mode, score `≥ min_ratio` in fuzzy mode, where the default
`MIN_RATIO` is 85 — and with `sort_results=True` and
`sort_reverse=True` the returned list is sorted by the full tuple order
in regex mode and by score descending in fuzzy mode. -/
theorem C6_match_filter_and_sort (nav0 : List String) (tbId : String)
    (toks : List Token) (nfn nnfn lfn sfn : String → String)
    (searchFn : String → String → Bool) (fns : FuzzFns) (token : List String)
    (normalise includeNumbers lemmatise stem : Bool) (fuzzMethod : String)
    (minRatio : Rat) (addTextblock : Bool) :
    (∀ res, tbMatch nav0 tbId toks nfn nnfn lfn sfn searchFn fns token
        normalise includeNumbers lemmatise stem fuzzMethod minRatio
        false true true addTextblock true = .ok res →
      (∀ r ∈ res, 0 < r.score) ∧
        res.Pairwise (fun x y => resultLe x y = true)) ∧
    (∀ res, tbMatch nav0 tbId toks nfn nnfn lfn sfn searchFn fns token
        normalise includeNumbers lemmatise stem fuzzMethod minRatio
        false true true addTextblock false = .ok res →
      (∀ r ∈ res, minRatio ≤ (r.score : Rat)) ∧
        res.Pairwise (fun x y => y.score ≤ x.score)) ∧
    minRatioDefault = 85 := by
  refine ⟨?_, ?_, rfl⟩
  · intro res h
    rw [tbMatch_regex_ok] at h
    have h2 := Except.ok.inj h
    subst h2
    constructor
    · intro r hr
      rw [mem_pySort] at hr
      have hs := (List.mem_filter.mp hr).2
      have hne : r.score ≠ 0 := by
        intro h0
        rw [h0] at hs
        exact absurd hs (by decide)
      omega
    · exact pySort_sorted resultLe resultLe_total resultLe_trans _
  · intro res h
    cases hp : pickFuzz fns fuzzMethod with
    | error e =>
      rw [tbMatch_fuzzy_err nav0 tbId toks nfn nnfn lfn sfn searchFn fns token
        normalise includeNumbers lemmatise stem fuzzMethod minRatio
        false true true addTextblock e hp] at h
      exact Except.noConfusion h
    | ok fuzzFn =>
      rw [tbMatch_fuzzy_ok nav0 tbId toks nfn nnfn lfn sfn searchFn fns token
        normalise includeNumbers lemmatise stem fuzzMethod minRatio
        true addTextblock fuzzFn hp] at h
      have h2 := Except.ok.inj h
      subst h2
      constructor
      · intro r hr
        rw [mem_pySort] at hr
        have hs := (List.mem_filter.mp hr).2
        exact of_decide_eq_true hs
      · have hsorted := pySort_sorted (scoreSortLe true) scoreSortLe_total
          scoreSortLe_trans ((buildMatches
            (if addTextblock then nav0 ++ [tbId] else nav0)
            (processTokens nfn nnfn lfn sfn toks normalise includeNumbers
              lemmatise stem).enum
            (fun mw tok => fuzzFn tok mw)
            token.eraseDups).filter (fun r => minRatio ≤ (r.score : Rat)))
        exact hsorted.imp (fun hxy => by simpa [scoreSortLe] using hxy)

/-- Witness: on a one-token text block matched against the word list
`["hello"]`, both modes of the theorem apply concretely — regex mode
returns the single score-100 result, fuzzy mode (method `ratio`,
`min_ratio` 85) the single score-90 result. -/
theorem C6_match_filter_and_sort_witness :
    ((∀ r ∈ [({ nav := ["doc", "tb1"], ix := 0, x := 0, y := 0, w := 5, h := 5, token := "hello", score := 100 } : MatchResult)], 0 < r.score) ∧
      [({ nav := ["doc", "tb1"], ix := 0, x := 0, y := 0, w := 5, h := 5, token := "hello", score := 100 } : MatchResult)].Pairwise
        (fun x y => resultLe x y = true)) ∧
    ((∀ r ∈ [({ nav := ["doc", "tb1"], ix := 0, x := 0, y := 0, w := 5, h := 5, token := "hello", score := 90 } : MatchResult)],
        (85 : Rat) ≤ (r.score : Rat)) ∧
      [({ nav := ["doc", "tb1"], ix := 0, x := 0, y := 0, w := 5, h := 5, token := "hello", score := 90 } : MatchResult)].Pairwise
        (fun x y => y.score ≤ x.score)) := by
  have hmain := C6_match_filter_and_sort ["doc"] "tb1" [⟨0, 0, 5, 5, "hello"⟩]
    (fun s => s) (fun s => s) (fun s => s) (fun s => s) (fun mw tok => mw == tok)
    ⟨fun a b => if a == b then 90 else 80, fun a b => if a == b then 90 else 80,
      fun a b => if a == b then 90 else 80, fun a b => if a == b then 90 else 80⟩
    ["hello"] false false false false "ratio" 85 true
  exact ⟨hmain.1 _ (by decide), hmain.2.1 _ (by decide)⟩
